import Mathlib

/-!
Verification development for the rule-management backend
(`mcp-cursor-rules`): a shallow embedding of the two core components —
the `RuleComposer` (src/composer/rule-composer.ts) and the adaptive
`CacheManager` (src/services/cache-manager.ts) — together with theorems
settling the specification's testable properties.

Conventions of the embedding:
* JS strings are Lean `String`s; character-level processing is done on
  `List Char`.
* JS `Map` objects are association lists in insertion order (`mapSet`
  replaces in place, preserving the position of an existing key, exactly
  as a JS `Map` does).
* JS numbers used as integers (priorities, timestamps) are `Int`/`Nat`;
  the fractional eviction score is an exact rational (`ℚ`).
* The asynchronous methods of the source never interleave (every public
  cache method body runs under the instance lock), so each operation is
  a pure state transformer.
-/

namespace MCR

/-- The `Rule` entity (src/types/rule.ts).  `createdAt`/`updatedAt` are
`Date` objects in the source, modelled as millisecond timestamps. -/
structure Rule where
  id : String
  name : String
  type : String
  description : String
  tags : List String
  priority : Int
  content : String
  createdAt : Nat
  updatedAt : Nat
deriving DecidableEq, Repr

/-! ### Generic JS `Map` / `Set` helpers -/

/-- JS `Map.prototype.set`: replace the value in place if the key is
present (keeping its position in iteration order), otherwise append. -/
def mapSet {α : Type} (m : List (String × α)) (k : String) (v : α) :
    List (String × α) :=
  match m with
  | [] => [(k, v)]
  | (k₁, v₁) :: rest =>
      if k₁ = k then (k, v) :: rest else (k₁, v₁) :: mapSet rest k v

/-- JS `Map.prototype.get` (first — and only — binding of the key). -/
def mapGet {α : Type} (m : List (String × α)) (k : String) : Option α :=
  match m with
  | [] => none
  | (k₁, v₁) :: rest => if k₁ = k then some v₁ else mapGet rest k

/-- JS `Map.prototype.delete`. -/
def mapDelete {α : Type} (m : List (String × α)) (k : String) :
    List (String × α) :=
  match m with
  | [] => []
  | (k₁, v₁) :: rest =>
      if k₁ = k then rest else (k₁, v₁) :: mapDelete rest k

/-- JS `Set.prototype.add`: insertion-ordered, first occurrence kept. -/
def setAdd (s : List String) (x : String) : List String :=
  if x ∈ s then s else s ++ [x]

/-! ### String helpers mirroring JS semantics -/

/-- JS whitespace (the characters relevant to this code base). -/
def isWsChar (c : Char) : Bool :=
  c = ' ' || c = '\t' || c = '\n' || c = '\r' || c = '\x0b' || c = '\x0c'

/-- JS `String.prototype.trim` on a character list. -/
def trimChars (l : List Char) : List Char :=
  ((l.dropWhile isWsChar).reverse.dropWhile isWsChar).reverse

/-- JS `String.prototype.trim`. -/
def jsTrim (s : String) : String :=
  ⟨trimChars s.data⟩

/-- JS `content.split("\n")` on a character list (keeps empty
segments). -/
def splitLinesAux (cur : List Char) (acc : List (List Char)) :
    List Char → List (List Char)
  | [] => (acc ++ [cur.reverse])
  | c :: rest =>
      if c = '\n' then splitLinesAux [] (acc ++ [cur.reverse]) rest
      else splitLinesAux (c :: cur) acc rest

/-- JS `content.split("\n")`. -/
def splitLines (s : String) : List (List Char) :=
  splitLinesAux [] [] s.data

/-- The apostrophe character as a one-character string (used in the
conflict-resolution template literals). -/
def apos : String := ⟨['\x27']⟩

/-! ### RuleComposer (src/composer/rule-composer.ts) -/

/-- `RuleComposer.validateRules` accepts a rule iff `id`, `type`,
`content` and `name` are all truthy (non-empty strings). -/
def validRule (r : Rule) : Bool :=
  r.id != "" && r.type != "" && r.content != "" && r.name != ""

/-- One line of `RuleComposer.extractSettings`: the regex
`^([^:]+):\s*(.+)$` matches iff the line has a first colon preceded by
at least one character and followed by at least one character; the two
captured groups are then trimmed.  (`\s*` is greedy but backtracks, so
the trimmed second group always equals the trim of everything after the
first colon.) -/
def settingOfLine (line : List Char) : Option (String × String) :=
  let before := line.takeWhile (fun c => c ≠ ':')
  let after := line.drop (before.length + 1)
  if before.isEmpty ∨ before.length = line.length ∨ after.isEmpty then none
  else some (jsTrim ⟨before⟩, jsTrim ⟨after⟩)

/-- `RuleComposer.extractSettings`: a JS `Map` of `key: value` lines
(later lines overwrite the value of an earlier identical key while
keeping its position). -/
def extractSettings (content : String) : List (String × String) :=
  (splitLines content).foldl
    (fun settings line =>
      match settingOfLine line with
      | some (k, v) => mapSet settings k v
      | none => settings)
    []

/-- Scanner for the global regex `/depends-on:\s*([^\n]+)/g` followed by
`match.split(":")[1]?.trim()`: at each position where the literal
`depends-on:` occurs, skip JS whitespace (which may cross newlines),
then — if any character remains — the capture is the maximal run of
non-newline characters, of which the dependency id is the part before
the next colon, trimmed; empty ids are discarded.  Scanning resumes
after the full match.  The fuel is the length of the input, which each
step strictly decreases, so it never runs out. -/
def scanDeps : Nat → List Char → List String
  | 0, _ => []
  | _, [] => []
  | fuel + 1, c :: rest =>
      if ("depends-on:".data).isPrefixOf (c :: rest) then
        let afterWs := ((c :: rest).drop 11).dropWhile isWsChar
        if afterWs.isEmpty then []
        else
          let run := afterWs.takeWhile (fun x => x ≠ '\n')
          let dep := jsTrim ⟨run.takeWhile (fun x => x ≠ ':')⟩
          let restDeps := scanDeps fuel (afterWs.drop run.length)
          if dep = "" then restDeps else dep :: restDeps
      else scanDeps fuel rest

/-- `RuleComposer.extractDependencies` (result is a JS `Set`: first
occurrence kept, insertion-ordered). -/
def extractDependencies (content : String) : List String :=
  (scanDeps content.data.length content.data).foldl setAdd []

/-- The dependency graph built by `checkCircularDependencies`:
`rule.id → extractDependencies(rule.content)`, later rules with the
same id overwriting earlier ones. -/
def buildDepGraph (rules : List Rule) : List (String × List String) :=
  rules.foldl (fun g r => mapSet g r.id (extractDependencies r.content)) []

/-- `dependencyGraph.get(ruleId) || new Set()`. -/
def lookupDeps (g : List (String × List String)) (v : String) :
    List String :=
  (mapGet g v).getD []

/-- All ids occurring in the graph (keys and dependency targets); used
only to size the DFS fuel. -/
def univIds (g : List (String × List String)) : List String :=
  g.map Prod.fst ++ (g.map Prod.snd).flatten

/-- The `hasCycle` depth-first search of `checkCircularDependencies`,
run over a worklist: `vis` is the persistent `visited` set, `stack` the
`recursionStack`.  A node already on the stack signals a cycle; a
visited node is skipped; otherwise the node is pushed on both sets and
its dependencies explored, after which the stack entry is popped (the
continuation reuses the caller's `stack`).  The JS recursion is
unbounded; here one unit of fuel is consumed per call (keeping the
recursion structural, hence kernel-computable), and `dfsFuel` below is
proven adequate, so the fuel-exhaustion branch is never taken. -/
def dfsMany (g : List (String × List String)) :
    Nat → List String → List String → List String → Bool × List String
  | 0, _, vis, _ => (true, vis)
  | _ + 1, [], vis, _ => (false, vis)
  | fuel + 1, v :: rest, vis, stack =>
      if v ∈ stack then (true, vis)
      else if v ∈ vis then dfsMany g fuel rest vis stack
      else
        match dfsMany g fuel (lookupDeps g v) (v :: vis) (v :: stack) with
        | (true, vis₁) => (true, vis₁)
        | (false, vis₁) => dfsMany g fuel rest vis₁ stack

/-- Exploration weight of a vertex: one call plus one worklist entry
per dependency. -/
def vertexWt (g : List (String × List String)) (u : String) : Nat :=
  1 + (lookupDeps g u).length

/-- Total exploration weight of the not-yet-visited vertices. -/
def remWt (g : List (String × List String)) (vis : List String) : Nat :=
  ((((univIds g).dedup).filter (fun u => decide (u ∉ vis))).map
    (vertexWt g)).sum

/-- Fuel that always suffices for the DFS (proven adequate below). -/
def dfsFuel (g : List (String × List String)) (todo : List String) : Nat :=
  todo.length + remWt g [] + 1

/-- `RuleComposer.checkCircularDependencies` returns `true` iff it
throws `Circular dependency detected`. -/
def checkCircularDependencies (rules : List Rule) : Bool :=
  let g := buildDepGraph rules
  (dfsMany g (dfsFuel g (rules.map Rule.id)) (rules.map Rule.id) [] []).1

/-- Stable insertion of a rule into a list sorted by descending
priority: the new rule goes after all strictly larger priorities and
before equal ones that were inserted later (i.e. that appear earlier in
the original list, matching the stability of `Array.prototype.sort`
with comparator `(a, b) => (b.priority || 0) - (a.priority || 0)`). -/
def insertDesc (r : Rule) : List Rule → List Rule
  | [] => [r]
  | x :: xs =>
      if x.priority > r.priority then x :: insertDesc r xs else r :: x :: xs

/-- `[...rules].sort((a, b) => (b.priority || 0) - (a.priority || 0))`:
stable sort by descending numeric priority. -/
def sortDescPriority (rules : List Rule) : List Rule :=
  rules.foldr insertDesc []

/-- Accumulator of `RuleComposer.detectConflicts`: the `settings` map
(per key, all values contributed so far, in contribution order) and the
`conflicts` map. -/
structure ConflictAcc where
  settings : List (String × List String)
  conflicts : List (String × List String)

/-- Processing one `[setting, value]` pair of one rule inside
`detectConflicts`: append the value; if the values for this key are not
all equal (`new Set(values).size > 1`), record the key and its full
value list as a conflict. -/
def conflictStep (acc : ConflictAcc) (kv : String × String) : ConflictAcc :=
  let vals := ((mapGet acc.settings kv.1).getD []) ++ [kv.2]
  { settings := mapSet acc.settings kv.1 vals
    conflicts :=
      if 1 < vals.dedup.length then mapSet acc.conflicts kv.1 vals
      else acc.conflicts }

/-- `RuleComposer.detectConflicts` over the already-sorted rules. -/
def detectConflicts (rules : List Rule) : List (String × List String) :=
  (rules.foldl
      (fun acc r => (extractSettings r.content).foldl conflictStep acc)
      { settings := [], conflicts := [] }).conflicts

/-- The numbered `# - Value i: v` lines of one conflict block. -/
def conflictValueLines (vals : List String) : String :=
  (vals.enum).foldl
    (fun acc p =>
      acc ++ "# - Value " ++ toString (p.1 + 1) ++ ": " ++ p.2 ++ "\n")
    ""

/-- One block of the `# Conflict Resolution` section: every contributed
value, then the last value of the tracked sequence as the resolution. -/
def conflictBlock (kv : String × List String) : String :=
  "# Conflict in setting " ++ apos ++ kv.1 ++ apos ++ ":\n"
    ++ conflictValueLines kv.2
    ++ "# Resolution: Using highest priority value: "
    ++ (kv.2.getLast?.getD "undefined") ++ "\n\n"

/-- `RuleComposer.composeContent`: a header-wrapped block per sorted
rule, then (if any conflicts) the conflict-resolution section; the
result is trimmed. -/
def composeContent (rules : List Rule)
    (conflicts : List (String × List String)) : String :=
  let base := rules.foldl
    (fun acc r =>
      acc ++ "# From " ++ r.id ++ " (Priority: " ++ toString r.priority
        ++ ")\n" ++ r.content ++ "\n\n")
    ""
  let full :=
    if conflicts.isEmpty then base
    else base ++ "# Conflict Resolution\n"
          ++ conflicts.foldl (fun acc kv => acc ++ conflictBlock kv) ""
  jsTrim full

/-- `Math.min(...)` over a list of JS numbers (empty list unreachable in
`compose`, which rejects empty input). -/
def jsMathMin : List Int → Int
  | [] => 0
  | x :: xs => xs.foldl min x

/-- A default rule (only used to totalize `rules[0]` projections that
are unreachable for the non-empty lists `compose` passes). -/
def emptyRule : Rule :=
  { id := "", name := "", type := "", description := "", tags := []
    priority := 0, content := "", createdAt := 0, updatedAt := 0 }

/-- `RuleComposer.createComposedRule` applied to the sorted rules.
`fid` stands for the generated uuid, `now` for `new Date()`. -/
def createComposedRule (fid : String) (now : Nat) (rules : List Rule)
    (content : String) (conflictCount : Nat) : Rule :=
  let baseRule := rules.headD emptyRule
  { id := "composed-rule-" ++ fid
    name := "Composed Rule (" ++ toString rules.length ++ " rules)"
    type := baseRule.type
    description := "Composed from " ++ toString rules.length ++ " rule"
      ++ (if 1 < rules.length then "s" else "")
      ++ (if conflictCount ≠ 0 then
            " with " ++ toString conflictCount ++ " resolved conflicts"
          else "")
    tags := rules.foldl (fun acc r => r.tags.foldl setAdd acc) []
    priority := jsMathMin (rules.map Rule.priority)
    content := if content = "" then baseRule.content else content
    createdAt := now
    updatedAt := now }

/-- Duplicate elimination keeping the first occurrence of every string:
the specification-side reading of "the de-duplicated union … in the
order first encountered". -/
def dedupFirst : List String → List String
  | [] => []
  | x :: xs => x :: dedupFirst (xs.filter (fun y => y ≠ x))
  termination_by l => l.length
  decreasing_by
    simp only [List.length_cons]
    exact Nat.lt_succ_of_le (List.length_filter_le _ _)

/-- Errors thrown by `RuleComposer.compose`. -/
inductive ComposeError
  | emptyInput
  | invalidRule
  | circularDependency
deriving DecidableEq, Repr

/-- `RuleComposer.compose`.  `fid` is the freshly generated uuid, `now`
the current time; both are effects of the source method, passed here as
parameters. -/
def compose (rules : List Rule) (fid : String) (now : Nat) :
    Except ComposeError Rule :=
  if rules.isEmpty then .error .emptyInput
  else if rules.any (fun r => !(validRule r)) then .error .invalidRule
  else
    match rules with
    | [r] =>
        .ok { r with
                id := "composed-rule-" ++ fid
                description := "Composed from 1 rule"
                createdAt := now
                updatedAt := now }
    | _ =>
        if checkCircularDependencies rules then .error .circularDependency
        else
          let sorted := sortDescPriority rules
          let conflicts := detectConflicts sorted
          let content := composeContent sorted conflicts
          .ok (createComposedRule fid now sorted content conflicts.length)

/-! ### Dependency-graph semantics

`GStep g u v` is the edge relation of the dependency graph handed to the
DFS; `DependsOn rules u v` is the specification-side relation read
directly off the `depends-on:` directives.  For rule lists with distinct
ids the two coincide. -/

/-- Edge relation of a built dependency graph. -/
def GStep (g : List (String × List String)) (u v : String) : Prop :=
  v ∈ lookupDeps g u

/-- A directive edge: some input rule with id `u` declares
`depends-on: v`. -/
def DependsOn (rules : List Rule) (u v : String) : Prop :=
  ∃ r ∈ rules, r.id = u ∧ v ∈ extractDependencies r.content

/-- `u` cannot reach any vertex lying on a (nonempty) cycle. -/
def SafeV (g : List (String × List String)) (u : String) : Prop :=
  ∀ v, Relation.ReflTransGen (GStep g) u v →
    ¬ Relation.TransGen (GStep g) v v

/-- The recursion stack is a chain: each deeper entry has an edge to the
entry above it. -/
def IsChain (g : List (String × List String)) : List String → Prop
  | [] => True
  | [_] => True
  | a :: b :: t => GStep g b a ∧ IsChain g (b :: t)

/-- Every worklist entry is a dependency of the top of the stack (when
the stack is nonempty). -/
def TodoLinked (g : List (String × List String)) (stack todo : List String) :
    Prop :=
  ∀ s₀ s₁, stack = s₀ :: s₁ → ∀ u ∈ todo, GStep g s₀ u

/-! ### Concrete rules used in instance theorems -/

/-- `A(priority = 1, content = "x: 1")` from the testable properties. -/
def ruleA : Rule :=
  { id := "a", name := "Rule A", type := "style", description := ""
    tags := ["x"], priority := 1, content := "x: 1"
    createdAt := 0, updatedAt := 0 }

/-- `B(priority = 2, content = "x: 2")` from the testable properties. -/
def ruleB : Rule :=
  { id := "b", name := "Rule B", type := "docs", description := ""
    tags := ["y"], priority := 2, content := "x: 2"
    createdAt := 0, updatedAt := 0 }

/-- A single rule declaring `depends-on:` its own id. -/
def ruleSelf : Rule :=
  { id := "s", name := "Self", type := "t", description := ""
    tags := [], priority := 1, content := "depends-on: s"
    createdAt := 0, updatedAt := 0 }

/-- First of a mutually-dependent pair. -/
def ruleMutA : Rule :=
  { id := "a", name := "Mut A", type := "t", description := ""
    tags := [], priority := 1, content := "depends-on: b"
    createdAt := 0, updatedAt := 0 }

/-- Second of a mutually-dependent pair. -/
def ruleMutB : Rule :=
  { id := "b", name := "Mut B", type := "t", description := ""
    tags := [], priority := 2, content := "depends-on: a"
    createdAt := 0, updatedAt := 0 }

/-! ### CacheManager (src/services/cache-manager.ts)

Each public method runs entirely under the per-instance promise lock, so
every operation is modelled as a pure state transformer; `Date.now()` is
a `now : Nat` parameter (milliseconds).  External byte-level collaborators
(`JSON.stringify` of a Rule, `zlib` deflate/inflate, `JSON.parse` with
date revival) are a `Codec` parameter; `JSON.stringify` of a Node
`Buffer` is fixed by JSON semantics and modelled concretely. -/

/-- `enum WarmingStrategy`. -/
inductive WarmingStrategy
  | predictive
  | usageBased
  | priority
deriving DecidableEq, Repr

/-- `enum EvictionPolicy` (vestigial: no code path branches on it). -/
inductive EvictionPolicy
  | lru
  | lfu
  | priority
  | hybrid
deriving DecidableEq, Repr

/-- External serialization collaborators: `serialize` is the bytes of
`JSON.stringify(rule)`, `deflate`/`inflate` the zlib pair, and
`parseRevive` is `JSON.parse` followed by the `Date` revival performed
by `decompressValue`. -/
structure Codec where
  serialize : Rule → List Nat
  deflate : List Nat → List Nat
  inflate : List Nat → List Nat
  parseRevive : List Nat → Rule

/-- `interface CacheEntry`: `value` is `Rule | Buffer`. -/
structure CacheEntry where
  value : Sum Rule (List Nat)
  expiresAt : Nat
  priority : Int
  accessCount : Nat
  lastAccessed : Nat
  compressed : Bool
  size : Nat
deriving DecidableEq, Repr

/-- `interface CacheMetrics` (`ratioMetric` models the
`compressionRatio` member). -/
structure CacheMetrics where
  hits : Nat
  misses : Nat
  ratioMetric : ℚ
  warmingEfficiency : ℚ
deriving DecidableEq, Repr

/-- The full `CacheManager` state: the insertion-ordered entry map, the
resolved configuration, metrics, and the private fields (`ratioField`
models the private `compressionRatio` member, distinct from the metrics
one). -/
structure CacheState where
  cache : List (String × CacheEntry)
  ttl : Nat
  maxSize : Nat
  compressionThreshold : Nat
  warmingStrategy : WarmingStrategy
  evictionPolicy : EvictionPolicy
  metrics : CacheMetrics
  warmingInProgress : Bool
  currentSize : Nat
  ratioField : ℚ
deriving DecidableEq, Repr

/-- Construction errors of the `CacheManager` constructor. -/
inductive CacheConfigError
  | ttlNotPositive
  | maxSizeNotPositive
deriving DecidableEq, Repr

/-- The `CacheManager` constructor: rejects non-positive `ttl` or
`maxSize`; `compressionThreshold || 1024` (so an explicit `0` falls back
to the default), strategy defaults to usage-based, policy to hybrid. -/
def mkCacheManager (ttl maxSize : Int) (thr : Option Nat)
    (ws : Option WarmingStrategy) (ep : Option EvictionPolicy) :
    Except CacheConfigError CacheState :=
  if ttl ≤ 0 then .error .ttlNotPositive
  else if maxSize ≤ 0 then .error .maxSizeNotPositive
  else .ok
    { cache := []
      ttl := ttl.toNat
      maxSize := maxSize.toNat
      compressionThreshold :=
        match thr with
        | none => 1024
        | some 0 => 1024
        | some t => t
      warmingStrategy := ws.getD .usageBased
      evictionPolicy := ep.getD .hybrid
      metrics :=
        { hits := 0, misses := 0, ratioMetric := 0, warmingEfficiency := 0 }
      warmingInProgress := false
      currentSize := 0
      ratioField := 1 }

/-- `calculatePriority`: weighted recency score
`(accessCount / max(1, ageSeconds)) * priority`, exact in `ℚ`. -/
def calculatePriority (now : Nat) (e : CacheEntry) : ℚ :=
  let age : Nat := now - e.lastAccessed
  let normalizedAge : ℚ := max 1 ((age : ℚ) / 1000)
  ((e.accessCount : ℚ) / normalizedAge) * (e.priority : ℚ)

/-- `compressValue`: deflate the JSON bytes. -/
def compressValue (c : Codec) (v : Rule) : List Nat :=
  c.deflate (c.serialize v)

/-- `decompressValue`: inflate, parse, revive dates. -/
def decompressValue (c : Codec) (b : List Nat) : Rule :=
  c.parseRevive (c.inflate b)

/-- The comma-joined decimal renderings of the bytes in the `data`
array of `JSON.stringify(buffer)`. -/
def bufJsonData : List Nat → List Char
  | [] => []
  | [n] => (toString n).data
  | n :: rest => (toString n).data ++ ',' :: bufJsonData rest

/-- `JSON.stringify` of a Node `Buffer`, fixed by JSON semantics:
a `\x7b"type":"Buffer","data":[..]\x7d` object. -/
def jsonStringifyBuffer (b : List Nat) : List Char :=
  "\x7b\"type\":\"Buffer\",\"data\":[".data ++ bufJsonData b ++ "]\x7d".data

/-- `Buffer.from(JSON.stringify(entry.value)).length` for an entry
(a Buffer for compressed entries, the serialized Rule otherwise). -/
def originalSizeOf (c : Codec) (e : CacheEntry) : Nat :=
  match e.value with
  | Sum.inl r => (c.serialize r).length
  | Sum.inr b => (jsonStringifyBuffer b).length

/-- `calculateCompressionRatio`: compressed size over re-stringified
size of the currently compressed entries; `0` with no entries or no
compressed entries. -/
def compressionRatioOf (c : Codec) (cache : List (String × CacheEntry)) :
    ℚ :=
  let entries := cache.map Prod.snd
  if entries.isEmpty then 0
  else
    let compressedEntries := entries.filter (fun e => e.compressed)
    if compressedEntries.isEmpty then 0
    else
      (((compressedEntries.map (fun e => e.size)).sum : Nat) : ℚ)
        / (((compressedEntries.map (originalSizeOf c)).sum : Nat) : ℚ)

/-- A generic stable insertion sort: `keep y x` reads "`y` stays before
the incoming `x`" and must be the *strict* comparator order, which makes
the sort stable exactly like `Array.prototype.sort`. -/
def insertStable {α : Type} (keep : α → α → Bool) (x : α) :
    List α → List α
  | [] => [x]
  | y :: ys => if keep y x then y :: insertStable keep x ys else x :: y :: ys

/-- Stable sort by repeated insertion (rightmost first). -/
def stableSort {α : Type} (keep : α → α → Bool) (l : List α) : List α :=
  l.foldr (insertStable keep) []

/-- One candidate of the eviction ranking in `set` (key, computed
weighted score, base priority). -/
structure RankedKey where
  key : String
  score : ℚ
  base : Int
deriving DecidableEq

/-- The eviction ranking sort of `set`: ascending by base priority,
ties by computed score, stable. -/
def rankSort (l : List RankedKey) : List RankedKey :=
  stableSort (fun y x =>
    decide (y.base < x.base ∨ (y.base = x.base ∧ y.score < x.score))) l

/-- The at-capacity eviction step of `set`: `some` of the cache after
the eviction (insertion proceeds), or `none` when the insert is
silently skipped. -/
def evictionStep (s : CacheState) (priority : Int) (now : Nat) :
    Option (List (String × CacheEntry)) :=
  if s.cache.length ≥ s.maxSize then
    match rankSort (s.cache.map (fun kv =>
      { key := kv.1, score := calculatePriority now kv.2
        base := kv.2.priority : RankedKey })) with
    | [] => none
    | e₀ :: tailR =>
        if priority ≥ e₀.base then some (mapDelete s.cache e₀.key)
        else
          match tailR with
          | e₁ :: _ => some (mapDelete s.cache e₁.key)
          | [] => none
  else some s.cache

/-- The entry `set` inserts: compressed (deflated value, deflated size)
when the serialized size exceeds the threshold, plain otherwise. -/
def setEntry (c : Codec) (s : CacheState) (value : Rule) (priority : Int)
    (now : Nat) : CacheEntry :=
  if (c.serialize value).length > s.compressionThreshold then
    { value := Sum.inr (compressValue c value)
      expiresAt := now + s.ttl
      priority := priority
      accessCount := 0
      lastAccessed := now
      compressed := true
      size := (compressValue c value).length }
  else
    { value := Sum.inl value
      expiresAt := now + s.ttl
      priority := priority
      accessCount := 0
      lastAccessed := now
      compressed := false
      size := (c.serialize value).length }

/-- `set(key, value, priority = 1)`: the compression-ratio metric is
refreshed exactly when the new value gets compressed (over the current,
pre-insert cache); then the at-capacity eviction step runs and, unless
it skips, the entry is inserted. -/
def cacheSet (c : Codec) (s : CacheState) (key : String) (value : Rule)
    (priority : Int) (now : Nat) : CacheState :=
  let metrics₁ :=
    if (c.serialize value).length > s.compressionThreshold then
      { s.metrics with ratioMetric := compressionRatioOf c s.cache }
    else s.metrics
  match evictionStep s priority now with
  | none => { s with metrics := metrics₁ }
  | some cc =>
      { s with
          metrics := metrics₁
          cache := mapSet cc key (setEntry c s value priority now) }

/-- The value `get` hands back for a live entry: decompressed when the
entry is compressed (compressed entries always hold a buffer; the
`inl` fallback only totalizes the JS cast), the stored Rule
otherwise. -/
def getResultValue (c : Codec) (e : CacheEntry) :
    Sum Rule (List Nat) :=
  if e.compressed then
    match e.value with
    | Sum.inr b => Sum.inl (decompressValue c b)
    | Sum.inl r => Sum.inl r
  else e.value

/-- `get(key)` specialized on the map lookup: miss on absent or expired
key (deleting the stale entry), otherwise bump the access statistics
and return the value, decompressed if needed. -/
def cacheGetAux (c : Codec) (s : CacheState) (key : String) (now : Nat) :
    Option CacheEntry → Option (Sum Rule (List Nat)) × CacheState
  | none =>
      (none, { s with
        metrics := { s.metrics with misses := s.metrics.misses + 1 } })
  | some e =>
      if now > e.expiresAt then
        (none, { s with
          cache := mapDelete s.cache key
          metrics := { s.metrics with misses := s.metrics.misses + 1 } })
      else
        (some (getResultValue c
            { e with accessCount := e.accessCount + 1
                     lastAccessed := now }),
         { s with
            cache := mapSet s.cache key
              { e with accessCount := e.accessCount + 1
                       lastAccessed := now }
            metrics := { s.metrics with hits := s.metrics.hits + 1 } })

/-- `get(key)`. -/
def cacheGet (c : Codec) (s : CacheState) (key : String) (now : Nat) :
    Option (Sum Rule (List Nat)) × CacheState :=
  cacheGetAux c s key now (mapGet s.cache key)

/-- `delete(key)`. -/
def cacheDelete (s : CacheState) (key : String) : CacheState :=
  { s with cache := mapDelete s.cache key }

/-- `clear()`. -/
def cacheClear (s : CacheState) : CacheState :=
  { s with
      cache := []
      metrics :=
        { hits := 0, misses := 0, ratioMetric := 0, warmingEfficiency := 0 } }

/-- `getSize()`. -/
def cacheGetSize (s : CacheState) : Nat := s.cache.length

/-- `getMetrics()`. -/
def cacheGetMetrics (s : CacheState) : CacheMetrics := s.metrics

/-- The warming score `accessCount * (priority || 1)`. -/
def scoreOf (e : CacheEntry) : Int :=
  (e.accessCount : Int) * (if e.priority = 0 then 1 else e.priority)

/-- One scored candidate of `warm`. -/
structure ScoredKey where
  key : String
  entry : CacheEntry
  score : Int
deriving DecidableEq

/-- `warm`'s descending stable sort by score. -/
def scoreSortDesc (l : List ScoredKey) : List ScoredKey :=
  stableSort (fun y x => decide (x.score < y.score)) l

/-- `updateMetrics()`: recompute `currentSize` and the private
compression-ratio field (count-based; `1` for an empty cache). -/
def updateMetricsF (s : CacheState) : CacheState :=
  let entries := s.cache.map Prod.snd
  let compressedCount := (entries.filter (fun e => e.compressed)).length
  { s with
      currentSize := (entries.map (fun e => e.size)).sum
      ratioField :=
        if 0 < entries.length then
          (compressedCount : ℚ) / (entries.length : ℚ)
        else 1 }

/-- The positively-scored, non-expired candidates of `warm`, in map
order. -/
def warmScored (s : CacheState) (now : Nat) : List ScoredKey :=
  ((s.cache.filter (fun kv => decide (now ≤ kv.2.expiresAt))).map
    (fun kv => { key := kv.1, entry := kv.2, score := scoreOf kv.2 }))
    |>.filter (fun t => decide (0 < t.score))

/-- How many entries `warm` keeps: the top 20 % (`Math.ceil`), floored
at `min 2 n`. -/
def warmKeepCount (n : Nat) : Nat := max (min 2 n) ((n + 4) / 5)

/-- The refreshed copy of a kept entry. -/
def refreshEntry (ttl now : Nat) (e : CacheEntry) : CacheEntry :=
  { e with expiresAt := now + ttl, accessCount := 1, lastAccessed := now }

/-- The kept candidates of `warm` (highest-scoring `warmKeepCount`). -/
def warmKept (s : CacheState) (now : Nat) : List ScoredKey :=
  (scoreSortDesc (warmScored s now)).take
    (warmKeepCount (warmScored s now).length)

/-- The rebuilt map of `warm`: clear, then re-add the kept entries with
refreshed TTL and reset access count. -/
def warmNewCache (s : CacheState) (now : Nat) :
    List (String × CacheEntry) :=
  (warmKept s now).foldl
    (fun acc t => mapSet acc t.key (refreshEntry s.ttl now t.entry)) []

/-- `warm()`: no-op unless the strategy is usage-based (or a warming
pass is marked in progress); otherwise keep the highest-scoring
`warmKeepCount` of the positively-scored non-expired entries, clear the
map, reinsert only those with refreshed TTL and `accessCount = 1`, and
update the metrics fields.  Returns unchanged when the cache is empty or
no entry has a positive score.  (`Math.ceil(n * 0.2) = ⌈n / 5⌉` for
every cache size a double represents exactly, i.e. all realistic
sizes.) -/
def cacheWarm (s : CacheState) (now : Nat) : CacheState :=
  if s.warmingInProgress ∨ s.warmingStrategy ≠ WarmingStrategy.usageBased
  then s
  else if s.cache.isEmpty then s
  else if (warmScored s now).isEmpty then s
  else updateMetricsF { s with cache := warmNewCache s now }

/-- One public cache operation with its `Date.now()` reading. -/
inductive CacheOp
  | setOp (key : String) (value : Rule) (priority : Int) (now : Nat)
  | getOp (key : String) (now : Nat)
  | delOp (key : String)
  | clearOp
  | warmOp (now : Nat)

/-- The state transformer of one operation. -/
def applyOp (c : Codec) (s : CacheState) : CacheOp → CacheState
  | .setOp k v p n => cacheSet c s k v p n
  | .getOp k n => (cacheGet c s k n).2
  | .delOp k => cacheDelete s k
  | .clearOp => cacheClear s
  | .warmOp n => cacheWarm s n

/-- Well-formedness of compressed entries: they hold a buffer whose
length is the recorded size (true of every entry `set` creates and
`warm` preserves). -/
def WfCompressed (s : CacheState) : Prop :=
  ∀ kv ∈ s.cache, kv.2.compressed = true →
    ∃ b, kv.2.value = Sum.inr b ∧ kv.2.size = b.length

/-- Codec for instance theorems over small (uncompressed) values:
every rule serializes to one byte and parses back to `v`. -/
def codecSmall (v : Rule) : Codec :=
  { serialize := fun _ => [0]
    deflate := id
    inflate := id
    parseRevive := fun _ => v }

/-- Codec for instance theorems over large (compressed) values:
every rule serializes to 1025 bytes (over the default threshold) and
parses back to `v`; deflate is the identity. -/
def codecBig (v : Rule) : Codec :=
  { serialize := fun _ => List.replicate 1025 0
    deflate := id
    inflate := id
    parseRevive := fun _ => v }

/-- Codec whose serialization is two bytes (over a threshold of 1). -/
def codecTwo (v : Rule) : Codec :=
  { serialize := fun _ => [0, 0]
    deflate := id
    inflate := id
    parseRevive := fun _ => v }

/-- The state `new CacheManager(\x7bttl: 1000, maxSize: 1\x7d)` constructs. -/
def demoBase : CacheState :=
  { cache := [], ttl := 1000, maxSize := 1, compressionThreshold := 1024
    warmingStrategy := .usageBased, evictionPolicy := .hybrid
    metrics := { hits := 0, misses := 0, ratioMetric := 0
                 warmingEfficiency := 0 }
    warmingInProgress := false, currentSize := 0, ratioField := 1 }

/-- A one-slot cache with `compressionThreshold = 1`. -/
def demoBase1 : CacheState :=
  { demoBase with compressionThreshold := 1 }

/-- A five-slot cache with default threshold. -/
def demoBase5 : CacheState :=
  { demoBase with maxSize := 5 }

/-- A five-slot cache with `compressionThreshold = 1`. -/
def demoBase5t : CacheState :=
  { demoBase with maxSize := 5, compressionThreshold := 1 }

/-- An uncompressed entry with a given access count and priority. -/
def warmEntry (ac : Nat) (pr : Int) : CacheEntry :=
  { value := Sum.inl ruleA, expiresAt := 1000, priority := pr
    accessCount := ac, lastAccessed := 0, compressed := false, size := 1 }

/-- A three-entry usage-based cache with access counts `[3, 2, 0]`. -/
def warmDemo : CacheState :=
  { demoBase5 with
      cache := [("a", warmEntry 3 1), ("b", warmEntry 2 1),
                ("c", warmEntry 0 1)] }

/-! ### Association-list lemmas -/

theorem mapGet_mapSet_self {α : Type} (m : List (String × α)) (k : String)
    (v : α) : mapGet (mapSet m k v) k = some v := by
  induction m with
  | nil => simp [mapSet, mapGet]
  | cons p rest ih =>
      obtain ⟨k₁, v₁⟩ := p
      by_cases h : k₁ = k <;> simp [mapSet, mapGet, h, ih]

theorem mapGet_mapSet_ne {α : Type} (m : List (String × α)) (k k' : String)
    (v : α) (h : k' ≠ k) : mapGet (mapSet m k v) k' = mapGet m k' := by
  induction m with
  | nil => simp [mapSet, mapGet, h, Ne.symm h]
  | cons p rest ih =>
      obtain ⟨k₁, v₁⟩ := p
      by_cases h₁ : k₁ = k
      · subst h₁
        simp [mapSet, mapGet, h, Ne.symm h]
      · by_cases h₂ : k₁ = k' <;> simp [mapSet, mapGet, h, h₁, h₂, ih]

theorem mapGet_mem {α : Type} {m : List (String × α)} {k : String} {v : α}
    (h : mapGet m k = some v) : (k, v) ∈ m := by
  induction m with
  | nil => simp [mapGet] at h
  | cons p rest ih =>
      obtain ⟨k₁, v₁⟩ := p
      by_cases h₁ : k₁ = k
      · subst h₁
        simp [mapGet] at h
        simp [h]
      · simp only [mapGet, if_neg h₁] at h
        exact List.mem_cons_of_mem _ (ih h)

/-- Key set of a `mapSet`: unchanged if the key is present, the key
appended otherwise. -/
theorem mapSet_keys {α : Type} (m : List (String × α)) (k : String)
    (v : α) : (mapSet m k v).map Prod.fst =
      if k ∈ m.map Prod.fst then m.map Prod.fst
      else m.map Prod.fst ++ [k] := by
  induction m with
  | nil => simp [mapSet]
  | cons p rest ih =>
      obtain ⟨k₁, v₁⟩ := p
      by_cases h : k₁ = k
      · subst h
        simp [mapSet]
      · by_cases h₂ : k ∈ rest.map Prod.fst <;>
          simp [mapSet, h, Ne.symm h, h₂, ih]

/-! ### Facts about the built graph -/

theorem buildDepGraph_get_of_not_mem (rules : List Rule)
    (g₀ : List (String × List String)) (u : String)
    (h : u ∉ rules.map Rule.id) :
    mapGet (rules.foldl
      (fun g r => mapSet g r.id (extractDependencies r.content)) g₀) u
      = mapGet g₀ u := by
  induction rules generalizing g₀ with
  | nil => simp
  | cons r rest ih =>
      simp only [List.map_cons, List.mem_cons] at h
      push_neg at h
      simp only [List.foldl_cons]
      rw [ih _ (by simpa using h.2), mapGet_mapSet_ne _ _ _ _ h.1]

theorem buildDepGraph_get_self (rules : List Rule)
    (g₀ : List (String × List String)) (r : Rule) (hr : r ∈ rules)
    (hnd : (rules.map Rule.id).Nodup) :
    mapGet (rules.foldl
      (fun g r => mapSet g r.id (extractDependencies r.content)) g₀) r.id
      = some (extractDependencies r.content) := by
  induction rules generalizing g₀ with
  | nil => simp at hr
  | cons x rest ih =>
      simp only [List.map_cons, List.nodup_cons] at hnd
      rcases List.mem_cons.mp hr with h | h
      · subst h
        simp only [List.foldl_cons]
        rw [buildDepGraph_get_of_not_mem _ _ _ hnd.1, mapGet_mapSet_self]
      · exact ih _ h hnd.2

theorem foldGraph_keys (rules : List Rule)
    (g₀ : List (String × List String)) (u : String) :
    u ∈ ((rules.foldl
      (fun g r => mapSet g r.id (extractDependencies r.content)) g₀).map
        Prod.fst) ↔ u ∈ g₀.map Prod.fst ∨ u ∈ rules.map Rule.id := by
  induction rules generalizing g₀ with
  | nil => simp
  | cons x rest ih =>
      simp only [List.foldl_cons]
      rw [ih, mapSet_keys]
      by_cases h : x.id ∈ g₀.map Prod.fst
      · rw [if_pos h]
        simp only [List.map_cons, List.mem_cons]
        constructor
        · rintro (h₁ | h₁)
          · exact Or.inl h₁
          · exact Or.inr (Or.inr h₁)
        · rintro (h₁ | h₁ | h₁)
          · exact Or.inl h₁
          · exact Or.inl (h₁ ▸ h)
          · exact Or.inr h₁
      · rw [if_neg h]
        simp only [List.mem_append, List.map_cons, List.mem_cons,
          List.mem_singleton]
        tauto

theorem buildDepGraph_keys (rules : List Rule) (u : String) :
    u ∈ (buildDepGraph rules).map Prod.fst ↔ u ∈ rules.map Rule.id := by
  unfold buildDepGraph
  rw [foldGraph_keys]
  simp

theorem buildDepGraph_get (rules : List Rule) (r : Rule) (hr : r ∈ rules)
    (hnd : (rules.map Rule.id).Nodup) :
    mapGet (buildDepGraph rules) r.id
      = some (extractDependencies r.content) := by
  unfold buildDepGraph
  exact buildDepGraph_get_self rules [] r hr hnd

/-! ### Weighted counting lemmas for the DFS fuel -/

theorem sum_filter_mono {α : Type} (l : List α) (w : α → Nat)
    (p q : α → Bool) (h : ∀ a, q a = true → p a = true) :
    ((l.filter q).map w).sum ≤ ((l.filter p).map w).sum := by
  induction l with
  | nil => simp
  | cons x rest ih =>
      by_cases hq : q x = true
      · simp only [List.filter_cons, hq, h x hq, if_true, List.map_cons,
          List.sum_cons]
        omega
      · simp only [Bool.not_eq_true] at hq
        simp only [List.filter_cons, hq, Bool.false_eq_true, if_false]
        by_cases hp : p x = true
        · simp only [hp, if_true, List.map_cons, List.sum_cons]
          omega
        · simp only [Bool.not_eq_true] at hp
          simp only [hp, Bool.false_eq_true, if_false]
          exact ih

theorem sum_filter_cons_eq {α : Type} [DecidableEq α] (l : List α)
    (w : α → Nat) (vis : List α) (v : α) (hnd : l.Nodup) (hv : v ∈ l)
    (hvis : v ∉ vis) :
    ((l.filter (fun u => decide (u ∉ vis))).map w).sum
      = w v + ((l.filter (fun u => decide (u ∉ v :: vis))).map w).sum := by
  induction l with
  | nil => simp at hv
  | cons x rest ih =>
      rw [List.nodup_cons] at hnd
      rcases List.mem_cons.mp hv with h₁ | h₁
      · subst h₁
        have hx₁ : (decide (v ∉ vis)) = true := by simpa using hvis
        have hx₂ : (decide (v ∉ v :: vis)) = false := by simp
        simp only [List.filter_cons, hx₁, hx₂, if_true, Bool.false_eq_true,
          if_false, List.map_cons, List.sum_cons]
        have hcong : rest.filter (fun u => decide (u ∉ v :: vis))
            = rest.filter (fun u => decide (u ∉ vis)) := by
          apply List.filter_congr
          intro a ha
          have hax : a ≠ v := fun hc => hnd.1 (hc ▸ ha)
          simp [hax]
        rw [hcong]
      · have hvx : v ≠ x := fun hc => hnd.1 (hc ▸ h₁)
        by_cases hx : x ∈ vis
        · have hx₁ : (decide (x ∉ vis)) = false := by simpa using hx
          have hx₂ : (decide (x ∉ v :: vis)) = false := by simp [hx]
          simp only [List.filter_cons, hx₁, hx₂, Bool.false_eq_true, if_false]
          exact ih hnd.2 h₁
        · have hx₁ : (decide (x ∉ vis)) = true := by simpa using hx
          have hx₂ : (decide (x ∉ v :: vis)) = true := by
            simp [hx, Ne.symm hvx]
          simp only [List.filter_cons, hx₁, hx₂, if_true, List.map_cons,
            List.sum_cons]
          rw [ih hnd.2 h₁]
          omega

theorem remWt_le (g : List (String × List String)) (vis vis' : List String)
    (h : vis ⊆ vis') : remWt g vis' ≤ remWt g vis := by
  apply sum_filter_mono
  intro a ha
  simp only [decide_eq_true_eq] at ha ⊢
  exact fun hc => ha (h hc)

theorem remWt_cons (g : List (String × List String)) (vis : List String)
    (v : String) (hU : v ∈ univIds g) (hv : v ∉ vis) :
    remWt g vis = vertexWt g v + remWt g (v :: vis) := by
  unfold remWt
  exact sum_filter_cons_eq _ _ _ _ ((univIds g).nodup_dedup)
    (List.mem_dedup.mpr hU) hv

theorem lookupDeps_subset_univ (g : List (String × List String))
    (v w : String) (h : w ∈ lookupDeps g v) : w ∈ univIds g := by
  unfold lookupDeps at h
  cases hg : mapGet g v with
  | none => rw [hg] at h; simp at h
  | some deps =>
      rw [hg] at h
      simp only [Option.getD_some] at h
      have hmem := mapGet_mem hg
      unfold univIds
      refine List.mem_append.mpr (Or.inr ?_)
      exact List.mem_flatten.mpr
        ⟨deps, List.mem_map.mpr ⟨(v, deps), hmem, rfl⟩, h⟩

theorem gstep_mem_keys {g : List (String × List String)} {z w : String}
    (h : GStep g z w) : z ∈ g.map Prod.fst := by
  unfold GStep lookupDeps at h
  cases hg : mapGet g z with
  | none => rw [hg] at h; simp at h
  | some deps =>
      exact List.mem_map.mpr ⟨(z, deps), mapGet_mem hg, rfl⟩

/-! ### Safety: a vertex that cannot reach a cycle -/

theorem safe_of_deps (g : List (String × List String)) (v : String)
    (h : ∀ w ∈ lookupDeps g v, SafeV g w) : SafeV g v := by
  intro z hreach hcyc
  rcases Relation.ReflTransGen.cases_head hreach with heq | ⟨w, hw, hwz⟩
  · subst heq
    rcases Relation.TransGen.head'_iff.mp hcyc with ⟨w, hw, hwv⟩
    exact h w hw v hwv hcyc
  · exact h w hw z hwz hcyc

/-! ### Branch equations of the DFS -/

theorem dfsMany_zero (g : List (String × List String))
    (todo vis stack : List String) :
    dfsMany g 0 todo vis stack = (true, vis) := rfl

theorem dfsMany_nil (g : List (String × List String)) (fuel : Nat)
    (vis stack : List String) :
    dfsMany g (fuel + 1) [] vis stack = (false, vis) := rfl

theorem dfsMany_stack (g : List (String × List String)) (fuel : Nat)
    (v : String) (rest vis stack : List String) (hv : v ∈ stack) :
    dfsMany g (fuel + 1) (v :: rest) vis stack = (true, vis) := by
  simp [dfsMany, hv]

theorem dfsMany_vis (g : List (String × List String)) (fuel : Nat)
    (v : String) (rest vis stack : List String) (hv : v ∉ stack)
    (hv' : v ∈ vis) :
    dfsMany g (fuel + 1) (v :: rest) vis stack
      = dfsMany g fuel rest vis stack := by
  simp [dfsMany, hv, hv']

theorem dfsMany_new (g : List (String × List String)) (fuel : Nat)
    (v : String) (rest vis stack : List String) (hv : v ∉ stack)
    (hv' : v ∉ vis) :
    dfsMany g (fuel + 1) (v :: rest) vis stack
      = match dfsMany g fuel (lookupDeps g v) (v :: vis) (v :: stack) with
        | (true, vis₁) => (true, vis₁)
        | (false, vis₁) => dfsMany g fuel rest vis₁ stack := by
  simp [dfsMany, hv, hv']

/-- Visited sets only grow. -/
theorem dfsMany_vis_mono (g : List (String × List String)) :
    ∀ fuel todo vis stack, vis ⊆ (dfsMany g fuel todo vis stack).2 := by
  intro fuel todo vis stack
  induction fuel, todo, vis, stack using dfsMany.induct g with
  | case1 todo vis stack =>
      rw [dfsMany_zero]
      exact fun a ha => ha
  | case2 fuel vis stack =>
      rw [dfsMany_nil]
      exact fun a ha => ha
  | case3 fuel v rest vis stack hv =>
      rw [dfsMany_stack g fuel v rest vis stack hv]
      exact fun a ha => ha
  | case4 fuel v rest vis stack hv hv' ih =>
      rw [dfsMany_vis g fuel v rest vis stack hv hv']
      exact ih
  | case5 fuel v rest vis stack hv hv' vis₁ heq ih =>
      rw [dfsMany_new g fuel v rest vis stack hv hv', heq]
      rw [heq] at ih
      exact fun a ha => ih (List.mem_cons_of_mem _ ha)
  | case6 fuel v rest vis stack hv hv' vis₁ heq ih₁ ih₂ =>
      rw [dfsMany_new g fuel v rest vis stack hv hv', heq]
      rw [heq] at ih₁
      exact fun a ha => ih₂ (ih₁ (List.mem_cons_of_mem _ ha))

/-- Completeness invariant of the DFS: a `false` verdict certifies that
every worklist vertex was fully explored, is off the stack, and that all
visited vertices off the stack are safe. -/
theorem dfsMany_false_safe (g : List (String × List String)) :
    ∀ fuel todo vis stack vis',
    dfsMany g fuel todo vis stack = (false, vis') →
    (∀ u ∈ vis, u ∈ stack ∨ SafeV g u) →
    (∀ u ∈ todo, u ∈ vis' ∧ u ∉ stack) ∧
      (∀ u ∈ vis', u ∈ stack ∨ SafeV g u) := by
  intro fuel todo vis stack
  induction fuel, todo, vis, stack using dfsMany.induct g with
  | case1 todo vis stack =>
      intro vis' heq hsafe
      rw [dfsMany_zero] at heq
      simp at heq
  | case2 fuel vis stack =>
      intro vis' heq hsafe
      rw [dfsMany_nil] at heq
      simp only [Prod.mk.injEq, true_and] at heq
      subst heq
      exact ⟨by simp, hsafe⟩
  | case3 fuel v rest vis stack hv =>
      intro vis' heq hsafe
      rw [dfsMany_stack g fuel v rest vis stack hv] at heq
      simp at heq
  | case4 fuel v rest vis stack hv hv' ih =>
      intro vis' heq hsafe
      rw [dfsMany_vis g fuel v rest vis stack hv hv'] at heq
      obtain ⟨hrest, hfin⟩ := ih vis' heq hsafe
      refine ⟨?_, hfin⟩
      intro u hu
      rcases List.mem_cons.mp hu with h₁ | h₁
      · subst h₁
        have hmono := dfsMany_vis_mono g fuel rest vis stack
        rw [heq] at hmono
        exact ⟨hmono hv', hv⟩
      · exact hrest u h₁
  | case5 fuel v rest vis stack hv hv' vis₁ heq₁ ih =>
      intro vis' heq hsafe
      rw [dfsMany_new g fuel v rest vis stack hv hv', heq₁] at heq
      simp at heq
  | case6 fuel v rest vis stack hv hv' vis₁ heq₁ ih₁ ih₂ =>
      intro vis' heq hsafe
      rw [dfsMany_new g fuel v rest vis stack hv hv', heq₁] at heq
      have heqc : dfsMany g fuel rest vis₁ stack = (false, vis') := heq
      obtain ⟨hdeps, hvis₁⟩ := ih₁ vis₁ heq₁ (by
        intro u hu
        rcases List.mem_cons.mp hu with h₁ | h₁
        · exact Or.inl (h₁ ▸ List.mem_cons_self _ _)
        · rcases hsafe u h₁ with h₂ | h₂
          · exact Or.inl (List.mem_cons_of_mem _ h₂)
          · exact Or.inr h₂)
      have hsafev : SafeV g v := by
        apply safe_of_deps
        intro w hw
        rcases hvis₁ w (hdeps w hw).1 with h₂ | h₂
        · exact absurd h₂ (hdeps w hw).2
        · exact h₂
      have hvis₁' : ∀ u ∈ vis₁, u ∈ stack ∨ SafeV g u := by
        intro u hu
        rcases hvis₁ u hu with h₂ | h₂
        · rcases List.mem_cons.mp h₂ with h₃ | h₃
          · exact Or.inr (h₃ ▸ hsafev)
          · exact Or.inl h₃
        · exact Or.inr h₂
      obtain ⟨hrest, hfin⟩ := ih₂ vis' heqc hvis₁'
      refine ⟨?_, hfin⟩
      intro u hu
      rcases List.mem_cons.mp hu with h₁ | h₁
      · subst h₁
        have hm₁ := dfsMany_vis_mono g fuel (lookupDeps g u) (u :: vis)
          (u :: stack)
        rw [heq₁] at hm₁
        have hm₂ := dfsMany_vis_mono g fuel rest vis₁ stack
        rw [heqc] at hm₂
        exact ⟨hm₂ (hm₁ (List.mem_cons_self _ _)), hv⟩
      · exact hrest u h₁

/-- The stack is a chain, so every stack entry reaches the stack top. -/
theorem chain_reach (g : List (String × List String)) :
    ∀ (s₁ : List String) (s₀ : String), IsChain g (s₀ :: s₁) →
    ∀ v ∈ s₀ :: s₁, Relation.ReflTransGen (GStep g) v s₀ := by
  intro s₁
  induction s₁ with
  | nil =>
      intro s₀ _ v hv
      rcases List.mem_cons.mp hv with h | h
      · exact h ▸ Relation.ReflTransGen.refl
      · simp at h
  | cons b t ih =>
      intro s₀ hchain v hv
      obtain ⟨hedge, hchain₁⟩ := hchain
      rcases List.mem_cons.mp hv with h | h
      · exact h ▸ Relation.ReflTransGen.refl
      · exact (ih b hchain₁ v h).tail hedge

/-- Soundness of the DFS: with adequate fuel, a `true` verdict certifies
a real cycle. -/
theorem dfsMany_true_cycle (g : List (String × List String)) :
    ∀ fuel todo vis stack vis',
    dfsMany g fuel todo vis stack = (true, vis') →
    (∀ u ∈ todo, u ∈ univIds g) →
    todo.length + remWt g vis + 1 ≤ fuel →
    IsChain g stack →
    TodoLinked g stack todo →
    ∃ z, Relation.TransGen (GStep g) z z := by
  intro fuel todo vis stack
  induction fuel, todo, vis, stack using dfsMany.induct g with
  | case1 todo vis stack =>
      intro vis' _ _ hfuel _ _
      omega
  | case2 fuel vis stack =>
      intro vis' heq _ _ _ _
      rw [dfsMany_nil] at heq
      simp at heq
  | case3 fuel v rest vis stack hv =>
      intro vis' heq _ _ hchain hlink
      obtain ⟨s₀, s₁, hs⟩ : ∃ s₀ s₁, stack = s₀ :: s₁ := by
        cases stack with
        | nil => simp at hv
        | cons a b => exact ⟨a, b, rfl⟩
      subst hs
      have hedge : GStep g s₀ v := hlink s₀ s₁ rfl v (List.mem_cons_self _ _)
      have hreach : Relation.ReflTransGen (GStep g) v s₀ :=
        chain_reach g s₁ s₀ hchain v hv
      exact ⟨v, Relation.TransGen.tail' hreach hedge⟩
  | case4 fuel v rest vis stack hv hv' ih =>
      intro vis' heq hU hfuel hchain hlink
      rw [dfsMany_vis g fuel v rest vis stack hv hv'] at heq
      refine ih vis' heq (fun u hu => hU u (List.mem_cons_of_mem _ hu))
        ?_ hchain (fun s₀ s₁ hs u hu => hlink s₀ s₁ hs u
          (List.mem_cons_of_mem _ hu))
      simp only [List.length_cons] at hfuel
      omega
  | case5 fuel v rest vis stack hv hv' vis₁ heq₁ ih =>
      intro vis' heq hU hfuel hchain hlink
      have hvU : v ∈ univIds g := hU v (List.mem_cons_self _ _)
      have hrw := remWt_cons g vis v hvU hv'
      refine ih vis₁ heq₁ (fun u hu => lookupDeps_subset_univ g v u hu)
        ?_ ?_ ?_
      · unfold vertexWt at hrw
        simp only [List.length_cons] at hfuel
        omega
      · cases stack with
        | nil => trivial
        | cons s₀ s₁ =>
            exact ⟨hlink s₀ s₁ rfl v (List.mem_cons_self _ _), hchain⟩
      · intro s₀ s₁ hs u hu
        injection hs with h₁ h₂
        subst h₁
        exact hu
  | case6 fuel v rest vis stack hv hv' vis₁ heq₁ ih₁ ih₂ =>
      intro vis' heq hU hfuel hchain hlink
      rw [dfsMany_new g fuel v rest vis stack hv hv', heq₁] at heq
      have heqc : dfsMany g fuel rest vis₁ stack = (true, vis') := heq
      have hvU : v ∈ univIds g := hU v (List.mem_cons_self _ _)
      have hrw := remWt_cons g vis v hvU hv'
      have hmono := dfsMany_vis_mono g fuel (lookupDeps g v) (v :: vis)
        (v :: stack)
      rw [heq₁] at hmono
      have hle := remWt_le g (v :: vis) vis₁ hmono
      refine ih₂ vis' heqc (fun u hu => hU u (List.mem_cons_of_mem _ hu))
        ?_ hchain
        (fun s₀ s₁ hs u hu => hlink s₀ s₁ hs u (List.mem_cons_of_mem _ hu))
      unfold vertexWt at hrw
      simp only [List.length_cons] at hfuel
      omega

/-! ### The cycle checker characterized -/

theorem checkCircular_true_of_cycle (rules : List Rule)
    (h : ∃ z, Relation.TransGen (GStep (buildDepGraph rules)) z z) :
    checkCircularDependencies rules = true := by
  by_contra hfalse
  obtain ⟨z, hz⟩ := h
  set g := buildDepGraph rules with hg
  rcases hres : dfsMany g (dfsFuel g (rules.map Rule.id)) (rules.map Rule.id)
    [] [] with ⟨b, vis'⟩
  have hb : b = false := by
    unfold checkCircularDependencies at hfalse
    simp only [hres] at hfalse
    simpa using hfalse
  subst hb
  obtain ⟨htodo, hsafe⟩ := dfsMany_false_safe g _ _ _ _ _ hres (by simp)
  have hzkey : z ∈ g.map Prod.fst := by
    rcases Relation.TransGen.head'_iff.mp hz with ⟨w, hw, _⟩
    exact gstep_mem_keys hw
  have hzid : z ∈ rules.map Rule.id := (buildDepGraph_keys rules z).mp hzkey
  have hzsafe : SafeV g z := by
    rcases hsafe z (htodo z hzid).1 with h₂ | h₂
    · simp at h₂
    · exact h₂
  exact hzsafe z Relation.ReflTransGen.refl hz

theorem checkCircular_false_of_acyclic (rules : List Rule)
    (h : ¬ ∃ z, Relation.TransGen (GStep (buildDepGraph rules)) z z) :
    checkCircularDependencies rules = false := by
  by_contra htrue
  set g := buildDepGraph rules with hg
  rcases hres : dfsMany g (dfsFuel g (rules.map Rule.id)) (rules.map Rule.id)
    [] [] with ⟨b, vis'⟩
  have hb : b = true := by
    unfold checkCircularDependencies at htrue
    simp only [hres] at htrue
    simpa using htrue
  subst hb
  refine h (dfsMany_true_cycle g _ _ _ _ _ hres ?_ ?_ ?_ ?_)
  · intro u hu
    unfold univIds
    refine List.mem_append.mpr (Or.inl ?_)
    exact (buildDepGraph_keys rules u).mpr hu
  · unfold dfsFuel
    omega
  · trivial
  · intro s₀ s₁ hs
    simp at hs

/-- For rule lists with pairwise-distinct ids, the edges of the built
graph are exactly the `depends-on:` directives. -/
theorem gstep_iff_dependsOn (rules : List Rule)
    (hnd : (rules.map Rule.id).Nodup) (u w : String) :
    GStep (buildDepGraph rules) u w ↔ DependsOn rules u w := by
  constructor
  · intro h
    have hkey := gstep_mem_keys h
    have hu : u ∈ rules.map Rule.id := (buildDepGraph_keys rules u).mp hkey
    obtain ⟨r, hr, hid⟩ := List.mem_map.mp hu
    have hget := buildDepGraph_get rules r hr hnd
    rw [hid] at hget
    unfold GStep lookupDeps at h
    rw [hget] at h
    simp only [Option.getD_some] at h
    exact ⟨r, hr, hid, h⟩
  · rintro ⟨r, hr, hid, hw⟩
    have hget := buildDepGraph_get rules r hr hnd
    rw [hid] at hget
    unfold GStep lookupDeps
    rw [hget]
    simpa using hw

theorem cycle_iff_dependsOn_cycle (rules : List Rule)
    (hnd : (rules.map Rule.id).Nodup) :
    (∃ z, Relation.TransGen (GStep (buildDepGraph rules)) z z) ↔
      ∃ z, Relation.TransGen (DependsOn rules) z z := by
  constructor
  · rintro ⟨z, hz⟩
    exact ⟨z, hz.mono fun a b h => (gstep_iff_dependsOn rules hnd a b).mp h⟩
  · rintro ⟨z, hz⟩
    exact ⟨z, hz.mono fun a b h => (gstep_iff_dependsOn rules hnd a b).mpr h⟩

/-! ### The stable descending sort -/

theorem insertDesc_perm (r : Rule) (l : List Rule) :
    (insertDesc r l).Perm (r :: l) := by
  induction l with
  | nil => exact List.Perm.refl _
  | cons x xs ih =>
      by_cases h : x.priority > r.priority
      · simp only [insertDesc, if_pos h]
        exact (ih.cons x).trans (List.Perm.swap r x xs)
      · simp only [insertDesc, if_neg h]
        exact List.Perm.refl _

theorem sortDescPriority_perm (l : List Rule) :
    (sortDescPriority l).Perm l := by
  induction l with
  | nil => exact List.Perm.refl _
  | cons x xs ih =>
      simp only [sortDescPriority, List.foldr_cons]
      exact (insertDesc_perm x _).trans (ih.cons x)

theorem insertDesc_pairwise (r : Rule) (l : List Rule)
    (h : l.Pairwise (fun a b => b.priority ≤ a.priority)) :
    (insertDesc r l).Pairwise (fun a b => b.priority ≤ a.priority) := by
  induction l with
  | nil => simp [insertDesc]
  | cons x xs ih =>
      rw [List.pairwise_cons] at h
      by_cases hgt : x.priority > r.priority
      · simp only [insertDesc, if_pos hgt]
        rw [List.pairwise_cons]
        refine ⟨?_, ih h.2⟩
        intro y hy
        rcases List.mem_cons.mp ((insertDesc_perm r xs).mem_iff.mp hy)
          with h₁ | h₁
        · subst h₁; exact le_of_lt hgt
        · exact h.1 y h₁
      · simp only [insertDesc, if_neg hgt]
        push_neg at hgt
        rw [List.pairwise_cons]
        refine ⟨?_, List.pairwise_cons.mpr h⟩
        intro y hy
        rcases List.mem_cons.mp hy with h₁ | h₁
        · subst h₁; exact hgt
        · exact le_trans (h.1 y h₁) hgt

theorem sortDescPriority_pairwise (l : List Rule) :
    (sortDescPriority l).Pairwise (fun a b => b.priority ≤ a.priority) := by
  induction l with
  | nil => simp [sortDescPriority]
  | cons x xs ih =>
      simp only [sortDescPriority, List.foldr_cons] at ih ⊢
      exact insertDesc_pairwise x _ ih

/-- The head of the descending sort has maximal priority. -/
theorem sortDescPriority_head_max (l : List Rule) (h₀ : Rule)
    (t : List Rule) (hs : sortDescPriority l = h₀ :: t) :
    ∀ x ∈ l, x.priority ≤ h₀.priority := by
  intro x hx
  have hperm := sortDescPriority_perm l
  have hx' : x ∈ h₀ :: t := hs ▸ hperm.mem_iff.mpr hx
  rcases List.mem_cons.mp hx' with h₁ | h₁
  · exact h₁ ▸ le_refl _
  · have hp := sortDescPriority_pairwise l
    rw [hs, List.pairwise_cons] at hp
    exact hp.1 x h₁

/-! ### `Math.min` over a list -/

theorem foldl_min_spec (xs : List Int) : ∀ a : Int,
    xs.foldl min a ∈ a :: xs ∧ ∀ y ∈ a :: xs, xs.foldl min a ≤ y := by
  induction xs with
  | nil => intro a; simp
  | cons b xs ih =>
      intro a
      simp only [List.foldl_cons]
      obtain ⟨hmem, hle⟩ := ih (min a b)
      constructor
      · rcases List.mem_cons.mp hmem with h₁ | h₁
        · rw [h₁]
          rcases min_choice a b with h₂ | h₂ <;> rw [h₂] <;> simp
        · simp [h₁]
      · intro y hy
        have hbase : List.foldl min (min a b) xs ≤ min a b :=
          hle _ (List.mem_cons_self _ _)
        rcases List.mem_cons.mp hy with h₁ | h₁
        · subst h₁; exact le_trans hbase (min_le_left _ _)
        · rcases List.mem_cons.mp h₁ with h₂ | h₂
          · subst h₂; exact le_trans hbase (min_le_right _ _)
          · exact hle y (List.mem_cons_of_mem _ h₂)

theorem jsMathMin_spec (x : Int) (xs : List Int) :
    jsMathMin (x :: xs) ∈ x :: xs ∧ ∀ y ∈ x :: xs, jsMathMin (x :: xs) ≤ y := by
  simpa [jsMathMin] using foldl_min_spec xs x

/-! ### The tag-set fold -/

theorem foldl_setAdd_eq (l : List String) : ∀ acc : List String,
    l.foldl setAdd acc
      = acc ++ dedupFirst (l.filter (fun x => decide (x ∉ acc))) := by
  induction l with
  | nil => intro acc; simp [dedupFirst]
  | cons x l ih =>
      intro acc
      simp only [List.foldl_cons]
      by_cases hx : x ∈ acc
      · rw [show setAdd acc x = acc from if_pos hx, ih]
        congr 2
        simp [List.filter_cons, hx]
      · rw [show setAdd acc x = acc ++ [x] from if_neg hx, ih]
        have hfil : (x :: l).filter (fun y => decide (y ∉ acc))
            = x :: l.filter (fun y => decide (y ∉ acc)) := by
          simp [List.filter_cons, hx]
        rw [hfil]
        simp only [dedupFirst, List.append_assoc, List.cons_append,
          List.nil_append]
        congr 2
        have : (l.filter (fun y => decide (y ∉ acc))).filter
            (fun y => decide (y ≠ x))
            = l.filter (fun y => decide (y ∉ acc ++ [x])) := by
          rw [List.filter_filter]
          apply List.filter_congr
          intro a _
          by_cases h₁ : a = x <;> by_cases h₂ : a ∈ acc <;>
            simp [h₁, h₂]
        rw [← this]

theorem foldl_setAdd_nil (l : List String) :
    l.foldl setAdd [] = dedupFirst l := by
  rw [foldl_setAdd_eq]
  simp

theorem tagsFold_eq (rules : List Rule) : ∀ acc : List String,
    rules.foldl (fun acc r => r.tags.foldl setAdd acc) acc
      = ((rules.map Rule.tags).flatten).foldl setAdd acc := by
  induction rules with
  | nil => intro acc; simp
  | cons r rest ih =>
      intro acc
      simp only [List.foldl_cons, List.map_cons, List.flatten_cons,
        List.foldl_append]
      exact ih _

theorem dedupFirst_of_nodup (l : List String) (h : l.Nodup) :
    dedupFirst l = l := by
  induction l with
  | nil => simp [dedupFirst]
  | cons x xs ih =>
      rw [List.nodup_cons] at h
      simp only [dedupFirst]
      rw [List.filter_eq_self.mpr, ih h.2]
      intro a ha
      simp only [ne_eq, decide_eq_true_eq]
      intro hc
      exact h.1 (hc ▸ ha)

/-! ### `compose` branch equations -/

theorem compose_single_eq (A : Rule) (fid : String) (now : Nat)
    (hval : validRule A = true) :
    compose [A] fid now = Except.ok
      { A with
          id := "composed-rule-" ++ fid
          description := "Composed from 1 rule"
          createdAt := now
          updatedAt := now } := by
  simp [compose, hval]

theorem compose_multi_eq (x y : Rule) (rest : List Rule) (fid : String)
    (now : Nat)
    (hval : (x :: y :: rest).any (fun r => !(validRule r)) = false) :
    compose (x :: y :: rest) fid now =
      if checkCircularDependencies (x :: y :: rest) then
        Except.error ComposeError.circularDependency
      else
        Except.ok (createComposedRule fid now
          (sortDescPriority (x :: y :: rest))
          (composeContent (sortDescPriority (x :: y :: rest))
            (detectConflicts (sortDescPriority (x :: y :: rest))))
          (detectConflicts (sortDescPriority (x :: y :: rest))).length) := by
  simp [compose, hval]

theorem createComposedRule_priority (fid : String) (now : Nat)
    (rules : List Rule) (content : String) (n : Nat) :
    (createComposedRule fid now rules content n).priority
      = jsMathMin (rules.map Rule.priority) := rfl

theorem createComposedRule_tags (fid : String) (now : Nat)
    (rules : List Rule) (content : String) (n : Nat) :
    (createComposedRule fid now rules content n).tags
      = rules.foldl (fun acc r => r.tags.foldl setAdd acc) [] := rfl

theorem createComposedRule_type (fid : String) (now : Nat)
    (rules : List Rule) (content : String) (n : Nat) :
    (createComposedRule fid now rules content n).type
      = (rules.headD emptyRule).type := rfl

/-! ### Claim theorems for the Rule Composer -/

/-- C1: composing `A(priority = 1, content = "x: 1")` with
`B(priority = 2, content = "x: 2")` succeeds; the composed content has
the line `x: 2` (from the larger-priority-number rule `B`) strictly
before the line `x: 1` (from rule `A`), and ends with a Conflict
Resolution section listing both contributed values for the key `x` and
naming `1` — the last value of the tracked sequence, contributed by the
highest-precedence rule `A` — as the resolution. -/
theorem c1_order_and_conflict_resolution :
    ∃ res, compose [ruleA, ruleB] "f1" 7 = Except.ok res ∧
      "x: 2".data ∈ splitLines res.content ∧
      "x: 1".data ∈ splitLines res.content ∧
      (splitLines res.content).indexOf "x: 2".data
        < (splitLines res.content).indexOf "x: 1".data ∧
      res.content
        = "# From b (Priority: 2)\nx: 2\n\n# From a (Priority: 1)\nx: 1\n\n"
          ++ "# Conflict Resolution\n# Conflict in setting " ++ apos ++ "x"
          ++ apos ++ ":\n# - Value 1: 2\n# - Value 2: 1\n"
          ++ "# Resolution: Using highest priority value: 1" := by
  set_option maxRecDepth 16384 in
  refine ⟨_, rfl, ?_, ?_, ?_, ?_⟩ <;> decide

/-- C3 counterexample: a single structurally valid rule whose content
declares `depends-on:` its own id forms a directive cycle, yet `compose`
succeeds (the single-rule shortcut returns before the cycle check), so
the claim as stated is false. -/
theorem c3_counterexample :
    Relation.TransGen (DependsOn [ruleSelf]) "s" "s" ∧
      compose [ruleSelf] "f3" 0
        = Except.ok
            { ruleSelf with
                id := "composed-rule-f3"
                description := "Composed from 1 rule"
                createdAt := 0
                updatedAt := 0 } := by
  constructor
  · exact Relation.TransGen.single ⟨ruleSelf, by simp, rfl, by decide⟩
  · rfl

/-- C3 (amended): for every sequence of **at least two** structurally
valid rules with pairwise-distinct ids whose `depends-on:` directives
form a cycle among the input rule ids, `compose` fails with
`CircularDependencyError` and returns no composed Rule. -/
theorem c3_cycle_error (rules : List Rule) (fid : String) (now : Nat)
    (hlen : 2 ≤ rules.length)
    (hval : ∀ r ∈ rules, validRule r = true)
    (hids : (rules.map Rule.id).Nodup)
    (hcyc : ∃ z, Relation.TransGen (DependsOn rules) z z) :
    compose rules fid now = Except.error ComposeError.circularDependency := by
  rcases rules with _ | ⟨x, _ | ⟨y, rest⟩⟩
  · simp at hlen
  · simp at hlen
  · have hval' : (x :: y :: rest).any (fun r => !(validRule r)) = false := by
      simp only [List.any_eq_false, Bool.not_eq_true]
      intro r hr
      simp [hval r hr]
    have hcirc : checkCircularDependencies (x :: y :: rest) = true :=
      checkCircular_true_of_cycle _
        ((cycle_iff_dependsOn_cycle _ hids).mpr hcyc)
    rw [compose_multi_eq _ _ _ _ _ hval']
    simp [hcirc]

/-- Witness for C3 (amended): two rules, each depending on the other,
are rejected with `CircularDependencyError`. -/
theorem c3_witness :
    (2 ≤ ([ruleMutA, ruleMutB] : List Rule).length) ∧
    (∀ r ∈ [ruleMutA, ruleMutB], validRule r = true) ∧
    (([ruleMutA, ruleMutB].map Rule.id).Nodup) ∧
    (∃ z, Relation.TransGen (DependsOn [ruleMutA, ruleMutB]) z z) ∧
    compose [ruleMutA, ruleMutB] "f" 0
      = Except.error ComposeError.circularDependency := by
  have hcyc : ∃ z, Relation.TransGen (DependsOn [ruleMutA, ruleMutB]) z z :=
    ⟨"a", Relation.TransGen.head ⟨ruleMutA, by simp, rfl, by decide⟩
      (Relation.TransGen.single ⟨ruleMutB, by simp, rfl, by decide⟩)⟩
  exact ⟨by decide, by decide, by decide, hcyc,
    c3_cycle_error _ "f" 0 (by decide) (by decide) (by decide) hcyc⟩

/-- C7: composing a single structurally valid rule returns a shallow
clone — content copied verbatim with no header wrapping, a fresh id
prefixed `composed-rule-`, the description `Composed from 1 rule`, fresh
timestamps, and all other fields (name, type, tags, priority) copied. -/
theorem c7_single_rule_clone (A : Rule) (fid : String) (now : Nat)
    (hval : validRule A = true) :
    compose [A] fid now = Except.ok
      { A with
          id := "composed-rule-" ++ fid
          description := "Composed from 1 rule"
          createdAt := now
          updatedAt := now } :=
  compose_single_eq A fid now hval

/-- Witness for C7 at a concrete rule. -/
theorem c7_witness :
    validRule ruleA = true ∧
    compose [ruleA] "w7" 3 = Except.ok
      { ruleA with
          id := "composed-rule-w7"
          description := "Composed from 1 rule"
          createdAt := 3
          updatedAt := 3 } :=
  ⟨by decide, c7_single_rule_clone ruleA "w7" 3 (by decide)⟩

/-- C8: for every non-empty, structurally valid, distinct-id rule set
whose `depends-on:` directives are acyclic (tags of each rule forming a
set, i.e. duplicate-free), `compose` terminates with exactly one
composed Rule whose priority is the minimum of the inputs' priorities
and whose tags are the duplicate-free union of the inputs' tags in the
order first encountered while iterating the descending-priority sorted
list. -/
theorem c8_acyclic_compose_ok (rules : List Rule) (fid : String) (now : Nat)
    (hne : rules ≠ [])
    (hval : ∀ r ∈ rules, validRule r = true)
    (hids : (rules.map Rule.id).Nodup)
    (htags : ∀ r ∈ rules, r.tags.Nodup)
    (hacyc : ¬ ∃ z, Relation.TransGen (DependsOn rules) z z) :
    ∃ res, compose rules fid now = Except.ok res ∧
      res.tags
        = dedupFirst (((sortDescPriority rules).map Rule.tags).flatten) ∧
      (∃ r₀ ∈ rules, res.priority = r₀.priority) ∧
      (∀ r ∈ rules, res.priority ≤ r.priority) := by
  rcases rules with _ | ⟨x, _ | ⟨y, rest⟩⟩
  · exact absurd rfl hne
  · refine ⟨_, compose_single_eq x fid now (hval x (by simp)), ?_, ?_, ?_⟩
    · have hsort : sortDescPriority [x] = [x] := rfl
      rw [hsort]
      simp only [List.map_cons, List.map_nil, List.flatten_cons,
        List.flatten_nil, List.append_nil]
      rw [dedupFirst_of_nodup _ (htags x (by simp))]
    · exact ⟨x, by simp, rfl⟩
    · intro r hr
      simp only [List.mem_singleton] at hr
      subst hr
      exact le_refl _
  · have hval' : (x :: y :: rest).any (fun r => !(validRule r)) = false := by
      simp only [List.any_eq_false, Bool.not_eq_true]
      intro r hr
      simp [hval r hr]
    have hcirc : checkCircularDependencies (x :: y :: rest) = false :=
      checkCircular_false_of_acyclic _
        (fun hc => hacyc ((cycle_iff_dependsOn_cycle _ hids).mp hc))
    rw [compose_multi_eq _ _ _ _ _ hval', if_neg (by simp [hcirc])]
    have hperm := sortDescPriority_perm (x :: y :: rest)
    rcases hsort : sortDescPriority (x :: y :: rest) with _ | ⟨s₀, srest⟩
    · have := hperm.length_eq
      rw [hsort] at this
      simp at this
    refine ⟨_, rfl, ?_, ?_, ?_⟩
    · rw [createComposedRule_tags, tagsFold_eq, foldl_setAdd_nil]
    · rw [createComposedRule_priority]
      simp only [List.map_cons]
      obtain ⟨hmem, _⟩ := jsMathMin_spec s₀.priority (srest.map Rule.priority)
      have hmem' : jsMathMin (s₀.priority :: srest.map Rule.priority)
          ∈ (s₀ :: srest).map Rule.priority := by simpa using hmem
      obtain ⟨r₀, hr₀, heq⟩ := List.mem_map.mp hmem'
      rw [hsort] at hperm
      exact ⟨r₀, hperm.mem_iff.mp hr₀, heq.symm⟩
    · intro r hr
      rw [createComposedRule_priority]
      simp only [List.map_cons]
      obtain ⟨_, hle⟩ := jsMathMin_spec s₀.priority (srest.map Rule.priority)
      rw [hsort] at hperm
      have hr' : r ∈ s₀ :: srest := hperm.mem_iff.mpr hr
      refine hle r.priority ?_
      rcases List.mem_cons.mp hr' with h₁ | h₁
      · simp [h₁]
      · exact List.mem_cons_of_mem _ (List.mem_map_of_mem _ h₁)

/-- Witness for C8: two dependency-free rules compose into one rule
with minimal priority `1` and tag union `["y", "x"]`. -/
theorem c8_witness :
    (∀ r ∈ [ruleB, ruleA], validRule r = true) ∧
    (([ruleB, ruleA].map Rule.id).Nodup) ∧
    (∀ r ∈ [ruleB, ruleA], r.tags.Nodup) ∧
    (¬ ∃ z, Relation.TransGen (DependsOn [ruleB, ruleA]) z z) ∧
    ∃ res, compose [ruleB, ruleA] "w8" 1 = Except.ok res ∧
      res.tags
        = dedupFirst (((sortDescPriority [ruleB, ruleA]).map Rule.tags).flatten)
      ∧ (∃ r₀ ∈ [ruleB, ruleA], res.priority = r₀.priority) ∧
      (∀ r ∈ [ruleB, ruleA], res.priority ≤ r.priority) := by
  have hacyc : ¬ ∃ z, Relation.TransGen (DependsOn [ruleB, ruleA]) z z := by
    rintro ⟨z, hz⟩
    rcases Relation.TransGen.head'_iff.mp hz with ⟨w, hw, _⟩
    obtain ⟨r, hr, _, hmem⟩ := hw
    simp only [List.mem_cons, List.not_mem_nil, or_false] at hr
    rcases hr with rfl | rfl
    · rw [show extractDependencies ruleB.content = [] from rfl] at hmem
      simp at hmem
    · rw [show extractDependencies ruleA.content = [] from rfl] at hmem
      simp at hmem
  exact ⟨by decide, by decide, by decide, hacyc,
    c8_acyclic_compose_ok _ "w8" 1 (by decide) (by decide) (by decide)
      (by decide) hacyc⟩

/-- C10: whenever a multi-rule composition succeeds, the composed
Rule's `type` is the `type` of the first rule of the descending-priority
sort order — a rule of maximal numeric priority value (lowest
precedence) among the inputs. -/
theorem c10_type_from_sort_head (rules : List Rule) (fid : String)
    (now : Nat) (res : Rule) (hlen : 2 ≤ rules.length)
    (hok : compose rules fid now = Except.ok res) :
    ∃ first rest₁, sortDescPriority rules = first :: rest₁ ∧
      res.type = first.type ∧
      ∀ r ∈ rules, r.priority ≤ first.priority := by
  rcases rules with _ | ⟨x, _ | ⟨y, rest⟩⟩
  · simp at hlen
  · simp at hlen
  · by_cases hval : (x :: y :: rest).any (fun r => !(validRule r)) = true
    · simp [compose, hval] at hok
    · simp only [Bool.not_eq_true] at hval
      rw [compose_multi_eq _ _ _ _ _ hval] at hok
      by_cases hcyc : checkCircularDependencies (x :: y :: rest) = true
      · simp [hcyc] at hok
      · simp only [Bool.not_eq_true] at hcyc
        rw [if_neg (by simp [hcyc])] at hok
        have hres := (Except.ok.inj hok).symm
        have hperm := sortDescPriority_perm (x :: y :: rest)
        rcases hsort : sortDescPriority (x :: y :: rest)
          with _ | ⟨s₀, srest⟩
        · have := hperm.length_eq
          rw [hsort] at this
          simp at this
        refine ⟨s₀, srest, rfl, ?_, ?_⟩
        · rw [hres, createComposedRule_type, hsort]
          simp
        · exact sortDescPriority_head_max _ s₀ srest hsort

/-- Witness for C10 at a concrete two-rule input: the composed type is
`ruleB.type` (`ruleB` has the larger priority number). -/
theorem c10_witness :
    (2 ≤ ([ruleA, ruleB] : List Rule).length) ∧
    ∃ first rest₁, sortDescPriority [ruleA, ruleB] = first :: rest₁ ∧
      (createComposedRule "f1" 7 (sortDescPriority [ruleA, ruleB])
        (composeContent (sortDescPriority [ruleA, ruleB])
          (detectConflicts (sortDescPriority [ruleA, ruleB])))
        (detectConflicts (sortDescPriority [ruleA, ruleB])).length).type
        = first.type ∧
      ∀ r ∈ [ruleA, ruleB], r.priority ≤ first.priority :=
  ⟨by decide, c10_type_from_sort_head [ruleA, ruleB] "f1" 7 _ (by decide) rfl⟩

/-! ### Map and stable-sort lemmas for the cache -/

theorem mapSet_length {α : Type} (m : List (String × α)) (k : String)
    (v : α) :
    (mapSet m k v).length
      = if k ∈ m.map Prod.fst then m.length else m.length + 1 := by
  have h := congrArg List.length (mapSet_keys m k v)
  simp only [List.length_map] at h
  rw [h]
  by_cases hk : k ∈ m.map Prod.fst <;> simp [hk]

theorem mapSet_length_le {α : Type} (m : List (String × α)) (k : String)
    (v : α) : (mapSet m k v).length ≤ m.length + 1 := by
  rw [mapSet_length]
  by_cases hk : k ∈ m.map Prod.fst <;> simp [hk]

theorem mapSet_keys_nodup {α : Type} (m : List (String × α)) (k : String)
    (v : α) (h : (m.map Prod.fst).Nodup) :
    ((mapSet m k v).map Prod.fst).Nodup := by
  rw [mapSet_keys]
  by_cases hk : k ∈ m.map Prod.fst
  · simpa [hk] using h
  · simp [hk, List.nodup_append, h]

theorem mapDelete_sublist {α : Type} (m : List (String × α)) (k : String) :
    (mapDelete m k).Sublist m := by
  induction m with
  | nil => simp [mapDelete]
  | cons p rest ih =>
      obtain ⟨k₁, v₁⟩ := p
      by_cases h : k₁ = k
      · simp only [mapDelete, if_pos h]
        exact List.sublist_cons_self _ _
      · simp only [mapDelete, if_neg h]
        exact ih.cons₂ _

theorem mapDelete_length_le {α : Type} (m : List (String × α))
    (k : String) : (mapDelete m k).length ≤ m.length :=
  (mapDelete_sublist m k).length_le

theorem mapDelete_keys_nodup {α : Type} (m : List (String × α))
    (k : String) (h : (m.map Prod.fst).Nodup) :
    ((mapDelete m k).map Prod.fst).Nodup :=
  h.sublist ((mapDelete_sublist m k).map Prod.fst)

theorem mapDelete_length_of_mem {α : Type} (m : List (String × α))
    (k : String) (h : k ∈ m.map Prod.fst) :
    (mapDelete m k).length + 1 = m.length := by
  induction m with
  | nil => simp at h
  | cons p rest ih =>
      obtain ⟨k₁, v₁⟩ := p
      by_cases h₁ : k₁ = k
      · simp [mapDelete, h₁]
      · simp only [List.map_cons, List.mem_cons] at h
        rcases h with h₂ | h₂
        · exact absurd h₂.symm h₁
        · simp only [mapDelete, if_neg h₁, List.length_cons]
          rw [← ih h₂]

theorem mapGet_eq_none_iff {α : Type} (m : List (String × α))
    (k : String) : mapGet m k = none ↔ k ∉ m.map Prod.fst := by
  induction m with
  | nil => simp [mapGet]
  | cons p rest ih =>
      obtain ⟨k₁, v₁⟩ := p
      by_cases h : k₁ = k
      · subst h
        simp [mapGet]
      · simp [mapGet, h, ih, Ne.symm h]

theorem nodup_keys_unique {α : Type} (m : List (String × α)) (k : String)
    (a b : α) (hnd : (m.map Prod.fst).Nodup) (ha : (k, a) ∈ m)
    (hb : (k, b) ∈ m) : a = b := by
  induction m with
  | nil => simp at ha
  | cons p rest ih =>
      simp only [List.map_cons, List.nodup_cons] at hnd
      rcases List.mem_cons.mp ha with h₁ | h₁ <;>
        rcases List.mem_cons.mp hb with h₂ | h₂
      · exact congrArg Prod.snd (h₁.trans h₂.symm)
      · exfalso
        apply hnd.1
        rw [← h₁] at hb ⊢
        exact List.mem_map.mpr ⟨(k, b), h₂, rfl⟩
      · exfalso
        apply hnd.1
        rw [← h₂] at ha ⊢
        exact List.mem_map.mpr ⟨(k, a), h₁, rfl⟩
      · exact ih hnd.2 h₁ h₂

theorem mapSet_append_of_not_mem {α : Type} (m : List (String × α))
    (k : String) (v : α) (h : k ∉ m.map Prod.fst) :
    mapSet m k v = m ++ [(k, v)] := by
  induction m with
  | nil => simp [mapSet]
  | cons p rest ih =>
      obtain ⟨k₁, v₁⟩ := p
      simp only [List.map_cons, List.mem_cons] at h
      push_neg at h
      simp only [mapSet, List.cons_append]
      rw [if_neg (Ne.symm h.1), ih h.2]

theorem insertStable_perm {α : Type} (keep : α → α → Bool) (x : α)
    (l : List α) : (insertStable keep x l).Perm (x :: l) := by
  induction l with
  | nil => exact List.Perm.refl _
  | cons y ys ih =>
      by_cases h : keep y x = true
      · simp only [insertStable, if_pos h]
        exact (ih.cons y).trans (List.Perm.swap x y ys)
      · simp only [insertStable, if_neg h]
        exact List.Perm.refl _

theorem stableSort_perm {α : Type} (keep : α → α → Bool) (l : List α) :
    (stableSort keep l).Perm l := by
  induction l with
  | nil => exact List.Perm.refl _
  | cons x xs ih =>
      simp only [stableSort, List.foldr_cons]
      exact (insertStable_perm keep x _).trans (ih.cons x)

theorem foldl_mapSet_length {α β : Type} (key : α → String) (f : α → β) :
    ∀ (l : List α) (acc : List (String × β)),
    (l.foldl (fun a t => mapSet a (key t) (f t)) acc).length
      ≤ acc.length + l.length := by
  intro l
  induction l with
  | nil => intro acc; simp
  | cons t l ih =>
      intro acc
      simp only [List.foldl_cons, List.length_cons]
      calc (l.foldl (fun a t => mapSet a (key t) (f t))
              (mapSet acc (key t) (f t))).length
          ≤ (mapSet acc (key t) (f t)).length + l.length := ih _
        _ ≤ acc.length + 1 + l.length := by
              have := mapSet_length_le acc (key t) (f t)
              omega
        _ = acc.length + (l.length + 1) := by omega

theorem foldl_mapSet_keys_nodup {α β : Type} (key : α → String)
    (f : α → β) :
    ∀ (l : List α) (acc : List (String × β)),
    (acc.map Prod.fst).Nodup →
    ((l.foldl (fun a t => mapSet a (key t) (f t)) acc).map Prod.fst).Nodup := by
  intro l
  induction l with
  | nil => intro acc h; simpa using h
  | cons t l ih =>
      intro acc h
      simp only [List.foldl_cons]
      exact ih _ (mapSet_keys_nodup _ _ _ h)

/-! ### The cache size invariant (C2) -/

/-- The inductive invariant: distinct keys and a size within bound. -/
def SizeInv (s : CacheState) : Prop :=
  (s.cache.map Prod.fst).Nodup ∧ s.cache.length ≤ s.maxSize

theorem evictionStep_some (s : CacheState) (p : Int) (now : Nat)
    (cc : List (String × CacheEntry))
    (h : evictionStep s p now = some cc) :
    (cc = s.cache ∧ s.cache.length < s.maxSize) ∨
      (∃ k, k ∈ s.cache.map Prod.fst ∧ cc = mapDelete s.cache k) := by
  unfold evictionStep at h
  by_cases hcap : s.cache.length ≥ s.maxSize
  · rw [if_pos hcap] at h
    set ranked : List RankedKey := s.cache.map (fun kv =>
      { key := kv.1, score := calculatePriority now kv.2
        base := kv.2.priority : RankedKey }) with hranked
    have hprov : ∀ e ∈ rankSort ranked, e.key ∈ s.cache.map Prod.fst := by
      intro e he
      have he₁ : e ∈ ranked :=
        (stableSort_perm _ ranked).mem_iff.mp he
      rw [hranked] at he₁
      obtain ⟨kv, hkv, heq⟩ := List.mem_map.mp he₁
      rw [← heq]
      exact List.mem_map.mpr ⟨kv, hkv, rfl⟩
    rcases hsort : rankSort ranked with _ | ⟨e₀, tailR⟩
    · rw [hsort] at h
      simp at h
    · rw [hsort] at h
      dsimp only at h
      by_cases hp : p ≥ e₀.base
      · rw [if_pos hp] at h
        simp only [Option.some.injEq] at h
        refine Or.inr ⟨e₀.key, hprov e₀ ?_, h.symm⟩
        rw [hsort]
        exact List.mem_cons_self _ _
      · rw [if_neg hp] at h
        rcases tailR with _ | ⟨e₁, tailR₂⟩
        · simp at h
        · simp only [Option.some.injEq] at h
          refine Or.inr ⟨e₁.key, hprov e₁ ?_, h.symm⟩
          rw [hsort]
          exact List.mem_cons_of_mem _ (List.mem_cons_self _ _)
  · rw [if_neg hcap] at h
    simp only [Option.some.injEq] at h
    exact Or.inl ⟨h.symm, by omega⟩

theorem sizeInv_set (c : Codec) (s : CacheState) (k : String) (v : Rule)
    (p : Int) (now : Nat) (h : SizeInv s) :
    SizeInv (cacheSet c s k v p now) := by
  obtain ⟨hnd, hlen⟩ := h
  unfold cacheSet
  rcases hev : evictionStep s p now with _ | cc
  · simp only [hev]
    exact ⟨hnd, hlen⟩
  · simp only [hev]
    rcases evictionStep_some s p now cc hev with ⟨rfl, hlt⟩ | ⟨key, hkey, rfl⟩
    · refine ⟨mapSet_keys_nodup _ _ _ hnd, ?_⟩
      show (mapSet s.cache k _).length ≤ s.maxSize
      calc (mapSet s.cache k _).length ≤ s.cache.length + 1 :=
            mapSet_length_le _ _ _
        _ ≤ s.maxSize := hlt
    · refine ⟨mapSet_keys_nodup _ _ _ (mapDelete_keys_nodup _ _ hnd), ?_⟩
      have h₁ := mapDelete_length_of_mem s.cache key hkey
      show (mapSet (mapDelete s.cache key) k _).length ≤ s.maxSize
      calc (mapSet (mapDelete s.cache key) k _).length
          ≤ (mapDelete s.cache key).length + 1 := mapSet_length_le _ _ _
        _ = s.cache.length := h₁
        _ ≤ s.maxSize := hlen

theorem sizeInv_get (c : Codec) (s : CacheState) (k : String) (now : Nat)
    (h : SizeInv s) : SizeInv (cacheGet c s k now).2 := by
  obtain ⟨hnd, hlen⟩ := h
  unfold cacheGet
  rcases hg : mapGet s.cache k with _ | e
  · exact ⟨hnd, hlen⟩
  · by_cases hexp : now > e.expiresAt
    · simp only [cacheGetAux, if_pos hexp]
      exact ⟨mapDelete_keys_nodup _ _ hnd,
        le_trans (mapDelete_length_le _ _) hlen⟩
    · simp only [cacheGetAux, if_neg hexp]
      have hk : k ∈ s.cache.map Prod.fst :=
        List.mem_map.mpr ⟨(k, e), mapGet_mem hg, rfl⟩
      refine ⟨mapSet_keys_nodup _ _ _ hnd, ?_⟩
      show (mapSet s.cache k _).length ≤ s.maxSize
      rw [mapSet_length, if_pos hk]
      exact hlen

theorem warmScored_length_le (s : CacheState) (now : Nat) :
    (warmScored s now).length ≤ s.cache.length := by
  unfold warmScored
  calc (((s.cache.filter (fun kv => decide (now ≤ kv.2.expiresAt))).map _)
      |>.filter (fun t => decide (0 < t.score))).length
      ≤ ((s.cache.filter (fun kv => decide (now ≤ kv.2.expiresAt))).map
          (fun kv =>
            ({ key := kv.1, entry := kv.2, score := scoreOf kv.2 } :
              ScoredKey))).length := List.length_filter_le _ _
    _ = (s.cache.filter (fun kv => decide (now ≤ kv.2.expiresAt))).length :=
          List.length_map _ _
    _ ≤ s.cache.length := List.length_filter_le _ _

theorem warmNewCache_length_le (s : CacheState) (now : Nat) :
    (warmNewCache s now).length ≤ s.cache.length := by
  unfold warmNewCache
  calc ((warmKept s now).foldl
        (fun acc t => mapSet acc t.key (refreshEntry s.ttl now t.entry))
        []).length
      ≤ ([] : List (String × CacheEntry)).length + (warmKept s now).length :=
        foldl_mapSet_length _ _ _ _
    _ = (warmKept s now).length := by simp
    _ ≤ (scoreSortDesc (warmScored s now)).length := by
          unfold warmKept
          rw [List.length_take]
          exact min_le_right _ _
    _ = (warmScored s now).length :=
          (stableSort_perm _ _).length_eq
    _ ≤ s.cache.length := warmScored_length_le s now

theorem sizeInv_warm (s : CacheState) (now : Nat) (h : SizeInv s) :
    SizeInv (cacheWarm s now) := by
  obtain ⟨hnd, hlen⟩ := h
  unfold cacheWarm
  split
  · exact ⟨hnd, hlen⟩
  · split
    · exact ⟨hnd, hlen⟩
    · split
      · exact ⟨hnd, hlen⟩
      · refine ⟨?_, ?_⟩
        · show ((warmNewCache s now).map Prod.fst).Nodup
          unfold warmNewCache
          exact foldl_mapSet_keys_nodup _ _ _ [] (by simp)
        · show (warmNewCache s now).length ≤ s.maxSize
          exact le_trans (warmNewCache_length_le s now) hlen

theorem sizeInv_applyOp (c : Codec) (s : CacheState) (op : CacheOp)
    (h : SizeInv s) : SizeInv (applyOp c s op) := by
  cases op with
  | setOp k v p n => exact sizeInv_set c s k v p n h
  | getOp k n => exact sizeInv_get c s k n h
  | delOp k =>
      exact ⟨mapDelete_keys_nodup _ _ h.1,
        le_trans (mapDelete_length_le _ _) h.2⟩
  | clearOp =>
      refine ⟨?_, ?_⟩
      · show ((([] : List (String × CacheEntry))).map Prod.fst).Nodup
        simp
      · show ([] : List (String × CacheEntry)).length ≤ s.maxSize
        simp
  | warmOp n => exact sizeInv_warm s n h

theorem applyOp_maxSize (c : Codec) (s : CacheState) (op : CacheOp) :
    (applyOp c s op).maxSize = s.maxSize := by
  cases op with
  | setOp k v p n =>
      show (cacheSet c s k v p n).maxSize = s.maxSize
      unfold cacheSet
      rcases hev : evictionStep s p n with _ | cc <;> simp [hev]
  | getOp k n =>
      show ((cacheGet c s k n).2).maxSize = s.maxSize
      unfold cacheGet
      rcases hg : mapGet s.cache k with _ | e
      · rfl
      · by_cases hexp : n > e.expiresAt
        · simp [cacheGetAux, if_pos hexp]
        · simp [cacheGetAux, if_neg hexp]
  | delOp k => rfl
  | clearOp => rfl
  | warmOp n =>
      show (cacheWarm s n).maxSize = s.maxSize
      unfold cacheWarm
      split
      · rfl
      · split
        · rfl
        · split <;> rfl

theorem foldl_applyOp_inv (c : Codec) (ops : List CacheOp) :
    ∀ s : CacheState, SizeInv s →
    SizeInv (ops.foldl (applyOp c) s) ∧
      (ops.foldl (applyOp c) s).maxSize = s.maxSize := by
  induction ops with
  | nil => intro s h; exact ⟨h, rfl⟩
  | cons op ops ih =>
      intro s h
      simp only [List.foldl_cons]
      obtain ⟨h₁, h₂⟩ := ih (applyOp c s op) (sizeInv_applyOp c s op h)
      exact ⟨h₁, h₂.trans (applyOp_maxSize c s op)⟩

/-! ### Claim theorems for the Adaptive Cache -/

/-- C2: starting from any successfully constructed cache, after any
sequence of `set`/`get`/`delete`/`clear`/`warm` operations the number of
resident entries never exceeds `maxSize`; `set` at capacity evicts the
lowest-ranked entry when the incoming priority is at least its base
priority, otherwise the second-lowest when one exists, and otherwise
skips the insert, so the bound is maintained. -/
theorem c2_size_bound (c : Codec) (ttl maxSize : Int) (thr : Option Nat)
    (ws : Option WarmingStrategy) (ep : Option EvictionPolicy)
    (s₀ : CacheState)
    (hinit : mkCacheManager ttl maxSize thr ws ep = Except.ok s₀)
    (ops : List CacheOp) :
    (ops.foldl (applyOp c) s₀).cache.length ≤ maxSize.toNat := by
  unfold mkCacheManager at hinit
  by_cases h₁ : ttl ≤ 0
  · simp [h₁] at hinit
  · by_cases h₂ : maxSize ≤ 0
    · simp [h₁, h₂] at hinit
    · simp only [if_neg h₁, if_neg h₂, Except.ok.injEq] at hinit
      have hc : s₀.cache = [] := by rw [← hinit]
      have hms : s₀.maxSize = maxSize.toNat := by rw [← hinit]
      have hSI : SizeInv s₀ := by
        constructor
        · rw [hc]; simp
        · rw [hc]; simp
      obtain ⟨⟨_, hlen⟩, hmax⟩ := foldl_applyOp_inv c ops s₀ hSI
      rw [hmax, hms] at hlen
      exact hlen

/-- Witness for C2: three distinct inserts into a two-slot cache leave
at most two entries. -/
theorem c2_witness :
    ∃ s₀, mkCacheManager 1000 2 none none none = Except.ok s₀ ∧
      (([CacheOp.setOp "k1" ruleA 1 0, CacheOp.setOp "k2" ruleB 1 1,
          CacheOp.setOp "k3" ruleSelf 1 2]).foldl
        (applyOp (codecSmall ruleA)) s₀).cache.length ≤ (2 : Int).toNat :=
  ⟨_, rfl, c2_size_bound (codecSmall ruleA) 1000 2 none none none _ rfl _⟩

/-! ### Compression facts (C4, C5) -/

theorem bufJsonData_length (b : List Nat) :
    b.length ≤ (bufJsonData b).length + 1 := by
  induction b with
  | nil => simp [bufJsonData]
  | cons n rest ih =>
      cases rest with
      | nil => simp [bufJsonData]
      | cons m rest₂ =>
          simp only [bufJsonData, List.length_append, List.length_cons] at ih ⊢
          omega

theorem length_lt_jsonStringifyBuffer (b : List Nat) :
    b.length < (jsonStringifyBuffer b).length := by
  have h := bufJsonData_length b
  unfold jsonStringifyBuffer
  simp
  omega

theorem sum_le_sum_map {α : Type} (l : List α) (f g : α → Nat)
    (h : ∀ x ∈ l, f x ≤ g x) : (l.map f).sum ≤ (l.map g).sum := by
  induction l with
  | nil => simp
  | cons x xs ih =>
      simp only [List.map_cons, List.sum_cons]
      have hx := h x (List.mem_cons_self _ _)
      have hxs := ih (fun y hy => h y (List.mem_cons_of_mem _ hy))
      omega

theorem sum_lt_sum_map {α : Type} (l : List α) (f g : α → Nat)
    (h : ∀ x ∈ l, f x < g x) (hne : l ≠ []) :
    (l.map f).sum < (l.map g).sum := by
  cases l with
  | nil => exact absurd rfl hne
  | cons x xs =>
      simp only [List.map_cons, List.sum_cons]
      have hx := h x (List.mem_cons_self _ _)
      have hxs := sum_le_sum_map xs f g
        (fun y hy => le_of_lt (h y (List.mem_cons_of_mem _ hy)))
      omega

/-- The reported compression ratio is always strictly below `1` on a
well-formed cache: each compressed entry's recorded size is its
buffer's length, strictly below the length of the buffer's own JSON
rendering. -/
theorem compressionRatioOf_lt_one (c : Codec) (s : CacheState)
    (hwf : WfCompressed s) : compressionRatioOf c s.cache < 1 := by
  unfold compressionRatioOf
  by_cases h₁ : (s.cache.map Prod.snd).isEmpty = true
  · rw [if_pos h₁]; norm_num
  · rw [if_neg h₁]
    by_cases h₂ : ((s.cache.map Prod.snd).filter
        (fun e => e.compressed)).isEmpty = true
    · rw [if_pos h₂]; norm_num
    · rw [if_neg h₂]
      set ce := (s.cache.map Prod.snd).filter (fun e => e.compressed)
        with hce
      have hptw : ∀ e ∈ ce, e.size < originalSizeOf c e := by
        intro e he
        rw [hce] at he
        obtain ⟨hmem, hcomp⟩ := List.mem_filter.mp he
        obtain ⟨kv, hkv, hkv₂⟩ := List.mem_map.mp hmem
        obtain ⟨b, hval, hsz⟩ := hwf kv hkv (by rw [hkv₂]; simpa using hcomp)
        rw [← hkv₂]
        unfold originalSizeOf
        rw [hval, hsz]
        exact length_lt_jsonStringifyBuffer b
      have hne : ce ≠ [] := by
        intro hc
        rw [hc] at h₂
        simp at h₂
      have hlt := sum_lt_sum_map ce (fun e => e.size) (originalSizeOf c)
        hptw hne
      have hpos : (0 : ℚ) < (((ce.map (originalSizeOf c)).sum : Nat) : ℚ) := by
        exact_mod_cast lt_of_le_of_lt (Nat.zero_le _) hlt
      rw [div_lt_one hpos]
      exact_mod_cast hlt

theorem setEntry_expiresAt (c : Codec) (s : CacheState) (v : Rule)
    (p : Int) (now : Nat) :
    (setEntry c s v p now).expiresAt = now + s.ttl := by
  unfold setEntry
  split <;> rfl

theorem cacheSet_cache_eq (c : Codec) (s : CacheState) (k : String)
    (v : Rule) (p : Int) (now : Nat) (cc : List (String × CacheEntry))
    (hev : evictionStep s p now = some cc) :
    (cacheSet c s k v p now).cache
      = mapSet cc k (setEntry c s v p now) := by
  unfold cacheSet
  rw [hev]

theorem cacheSet_metrics (c : Codec) (s : CacheState) (k : String)
    (v : Rule) (p : Int) (now : Nat)
    (hsize : (c.serialize v).length > s.compressionThreshold) :
    (cacheSet c s k v p now).metrics
      = { s.metrics with ratioMetric := compressionRatioOf c s.cache } := by
  unfold cacheSet
  rcases hev : evictionStep s p now with _ | cc <;> simp [hev, hsize]

/-- What `get(k)` observes right after `set(k, v, p)` (whenever the
insert was not skipped): before the TTL elapses it is a hit returning
the decompressed original value; strictly after the TTL it is a miss
that increments the miss counter and deletes the stale entry. -/
theorem cacheGet_after_set (c : Codec) (s : CacheState) (k : String)
    (v : Rule) (p : Int) (now t : Nat) (cc : List (String × CacheEntry))
    (hev : evictionStep s p now = some cc)
    (hrt : decompressValue c (compressValue c v) = v) :
    (t ≤ now + s.ttl →
      (cacheGet c (cacheSet c s k v p now) k t).1 = some (Sum.inl v) ∧
      (cacheGet c (cacheSet c s k v p now) k t).2.metrics.hits
        = (cacheSet c s k v p now).metrics.hits + 1) ∧
    (now + s.ttl < t →
      (cacheGet c (cacheSet c s k v p now) k t).1 = none ∧
      (cacheGet c (cacheSet c s k v p now) k t).2.metrics.misses
        = (cacheSet c s k v p now).metrics.misses + 1 ∧
      (cacheGet c (cacheSet c s k v p now) k t).2.cache
        = mapDelete (cacheSet c s k v p now).cache k) := by
  have hc := cacheSet_cache_eq c s k v p now cc hev
  have hget : mapGet (cacheSet c s k v p now).cache k
      = some (setEntry c s v p now) := by
    rw [hc]
    exact mapGet_mapSet_self _ _ _
  have hres : ∀ a la, getResultValue c
      { setEntry c s v p now with accessCount := a, lastAccessed := la }
        = Sum.inl v := by
    intro a la
    unfold setEntry
    split
    · simp [getResultValue, hrt]
    · simp [getResultValue]
  constructor
  · intro ht
    have hexp : ¬ t > (setEntry c s v p now).expiresAt := by
      rw [setEntry_expiresAt]
      omega
    unfold cacheGet
    rw [hget]
    simp only [cacheGetAux, if_neg hexp]
    simp [hres]
  · intro ht
    have hexp : t > (setEntry c s v p now).expiresAt := by
      rw [setEntry_expiresAt]
      omega
    unfold cacheGet
    rw [hget]
    simp [cacheGetAux, if_pos hexp]

/-- C4 counterexample: on a full one-slot cache whose resident entry has
a higher base priority, `set` of an over-threshold value is silently
skipped, so the subsequent `get` returns nothing at all — the claim as
stated fails for that cache state. -/
theorem c4_counterexample :
    mkCacheManager 1000 1 (some 1) none none = Except.ok demoBase1 ∧
    ((codecTwo ruleB).serialize ruleB).length
      > demoBase1.compressionThreshold ∧
    (cacheGet (codecTwo ruleB)
      (cacheSet (codecTwo ruleB)
        (cacheSet (codecTwo ruleB) demoBase1 "a" ruleA 2 0) "b" ruleB 1 0)
      "b" 0).1 = none :=
  ⟨rfl, by decide, by decide⟩

/-- C4 (amended): for every cache state whose compressed entries are
well-formed and every Rule whose serialized size exceeds the
compression threshold, immediately after `set(k, v)` the metrics report
a compression ratio strictly below 1; and provided the insert was not
silently skipped by the at-capacity fallback, a subsequent non-expired
`get(k)` returns the original `v` after decompression. -/
theorem c4_compression (c : Codec) (s : CacheState) (k : String)
    (v : Rule) (p : Int) (now t : Nat)
    (hwf : WfCompressed s)
    (hsize : (c.serialize v).length > s.compressionThreshold)
    (hrt : decompressValue c (compressValue c v) = v) :
    (cacheSet c s k v p now).metrics.ratioMetric < 1 ∧
    ∀ cc, evictionStep s p now = some cc → t ≤ now + s.ttl →
      (cacheGet c (cacheSet c s k v p now) k t).1 = some (Sum.inl v) := by
  constructor
  · rw [cacheSet_metrics c s k v p now hsize]
    exact compressionRatioOf_lt_one c s hwf
  · intro cc hev ht
    exact ((cacheGet_after_set c s k v p now t cc hev hrt).1 ht).1

/-- Witness for C4: an over-threshold value set into a five-slot cache
is compressed, the reported ratio drops below 1, and `get` returns the
original after decompression. -/
theorem c4_witness :
    WfCompressed demoBase5t ∧
    ((codecTwo ruleB).serialize ruleB).length
      > demoBase5t.compressionThreshold ∧
    decompressValue (codecTwo ruleB)
      (compressValue (codecTwo ruleB) ruleB) = ruleB ∧
    (cacheSet (codecTwo ruleB) demoBase5t "k" ruleB 1 0).metrics.ratioMetric
      < 1 ∧
    (cacheGet (codecTwo ruleB)
      (cacheSet (codecTwo ruleB) demoBase5t "k" ruleB 1 0) "k" 5).1
      = some (Sum.inl ruleB) := by
  have hwf : WfCompressed demoBase5t := by
    intro kv hkv
    exact absurd hkv (by simp [demoBase5t, demoBase])
  obtain ⟨h₁, h₂⟩ := c4_compression (codecTwo ruleB) demoBase5t "k" ruleB
    1 0 5 hwf (by decide) rfl
  exact ⟨hwf, by decide, rfl, h₁,
    h₂ demoBase5t.cache (by decide) (by decide)⟩

/-- C5 counterexample: on a full one-slot cache whose resident entry has
a higher base priority, `set(k, v)` is silently skipped, and the
immediately following `get(k)` misses — so "set then get returns v"
fails for that cache state. -/
theorem c5_counterexample :
    mkCacheManager 1000 1 none none none = Except.ok demoBase ∧
    (cacheGet (codecSmall ruleB)
      (cacheSet (codecSmall ruleB)
        (cacheSet (codecSmall ruleB) demoBase "a" ruleA 2 0) "b" ruleB 1 0)
      "b" 0).1 = none :=
  ⟨rfl, by decide⟩

/-- C5 (amended): for every key, rule and cache state, provided the
default-priority insert is not silently skipped by the at-capacity
fallback, `set(k, v)` immediately followed by `get(k)` returns `v` and
increments the hit counter; and any `get(k)` strictly after
`ttl` has elapsed returns null, increments the miss counter, and
deletes the stale entry. -/
theorem c5_set_then_get (c : Codec) (s : CacheState) (k : String)
    (v : Rule) (now t : Nat) (cc : List (String × CacheEntry))
    (hrt : decompressValue c (compressValue c v) = v)
    (hev : evictionStep s 1 now = some cc) :
    (cacheGet c (cacheSet c s k v 1 now) k now).1 = some (Sum.inl v) ∧
    (cacheGet c (cacheSet c s k v 1 now) k now).2.metrics.hits
      = (cacheSet c s k v 1 now).metrics.hits + 1 ∧
    (now + s.ttl < t →
      (cacheGet c (cacheSet c s k v 1 now) k t).1 = none ∧
      (cacheGet c (cacheSet c s k v 1 now) k t).2.metrics.misses
        = (cacheSet c s k v 1 now).metrics.misses + 1 ∧
      (cacheGet c (cacheSet c s k v 1 now) k t).2.cache
        = mapDelete (cacheSet c s k v 1 now).cache k) := by
  obtain ⟨hhit, _⟩ := cacheGet_after_set c s k v 1 now now cc hev hrt
  obtain ⟨h₁, h₂⟩ := hhit (by omega)
  refine ⟨h₁, h₂, ?_⟩
  intro ht
  exact (cacheGet_after_set c s k v 1 now t cc hev hrt).2 ht

/-- Witness for C5: set then get on a below-capacity cache returns the
value; after the TTL has elapsed the same get misses and deletes. -/
theorem c5_witness :
    decompressValue (codecSmall ruleB)
      (compressValue (codecSmall ruleB) ruleB) = ruleB ∧
    evictionStep demoBase5 1 0 = some demoBase5.cache ∧
    ((cacheGet (codecSmall ruleB)
        (cacheSet (codecSmall ruleB) demoBase5 "k" ruleB 1 0) "k" 0).1
      = some (Sum.inl ruleB) ∧
     (cacheGet (codecSmall ruleB)
        (cacheSet (codecSmall ruleB) demoBase5 "k" ruleB 1 0) "k" 0).2.metrics.hits
      = (cacheSet (codecSmall ruleB) demoBase5 "k" ruleB 1 0).metrics.hits + 1 ∧
     (0 + demoBase5.ttl < 2000 →
      (cacheGet (codecSmall ruleB)
          (cacheSet (codecSmall ruleB) demoBase5 "k" ruleB 1 0) "k" 2000).1
        = none ∧
      (cacheGet (codecSmall ruleB)
          (cacheSet (codecSmall ruleB) demoBase5 "k" ruleB 1 0)
          "k" 2000).2.metrics.misses
        = (cacheSet (codecSmall ruleB) demoBase5 "k" ruleB 1 0).metrics.misses
            + 1 ∧
      (cacheGet (codecSmall ruleB)
          (cacheSet (codecSmall ruleB) demoBase5 "k" ruleB 1 0)
          "k" 2000).2.cache
        = mapDelete
            (cacheSet (codecSmall ruleB) demoBase5 "k" ruleB 1 0).cache
            "k")) :=
  ⟨rfl, by decide,
    c5_set_then_get (codecSmall ruleB) demoBase5 "k" ruleB 0 2000
      demoBase5.cache rfl (by decide)⟩

/-! ### Warming facts (C6) -/

theorem warmScored_mem (s : CacheState) (now : Nat) (t : ScoredKey)
    (h : t ∈ warmScored s now) :
    (t.key, t.entry) ∈ s.cache ∧ now ≤ t.entry.expiresAt ∧
      0 < t.score ∧ t.score = scoreOf t.entry := by
  unfold warmScored at h
  obtain ⟨hmem, hpos⟩ := List.mem_filter.mp h
  obtain ⟨kv, hkv, heq⟩ := List.mem_map.mp hmem
  obtain ⟨hcache, hexp⟩ := List.mem_filter.mp hkv
  subst heq
  refine ⟨hcache, by simpa using hexp, by simpa using hpos, rfl⟩

theorem warmScored_keys_sublist (s : CacheState) (now : Nat) :
    ((warmScored s now).map ScoredKey.key).Sublist
      (s.cache.map Prod.fst) := by
  unfold warmScored
  have h₁ : ((((s.cache.filter (fun kv => decide (now ≤ kv.2.expiresAt))).map
      (fun kv =>
        ({ key := kv.1, entry := kv.2, score := scoreOf kv.2 } : ScoredKey)))
      |>.filter (fun t => decide (0 < t.score))).map ScoredKey.key).Sublist
      ((((s.cache.filter (fun kv => decide (now ≤ kv.2.expiresAt))).map
        (fun kv =>
          ({ key := kv.1, entry := kv.2, score := scoreOf kv.2 } :
            ScoredKey)))).map ScoredKey.key) :=
    (List.filter_sublist _).map _
  have h₂ : ((((s.cache.filter (fun kv => decide (now ≤ kv.2.expiresAt))).map
      (fun kv =>
        ({ key := kv.1, entry := kv.2, score := scoreOf kv.2 } : ScoredKey)))).map
          ScoredKey.key)
      = (s.cache.filter (fun kv => decide (now ≤ kv.2.expiresAt))).map
          Prod.fst := by
    rw [List.map_map]
    rfl
  have h₃ : ((s.cache.filter
      (fun kv => decide (now ≤ kv.2.expiresAt))).map Prod.fst).Sublist
      (s.cache.map Prod.fst) :=
    (List.filter_sublist _).map _
  rw [h₂] at h₁
  exact h₁.trans h₃

theorem warmKept_mem (s : CacheState) (now : Nat) (t : ScoredKey)
    (h : t ∈ warmKept s now) : t ∈ warmScored s now := by
  unfold warmKept at h
  exact (stableSort_perm _ _).mem_iff.mp (List.take_subset _ _ h)

theorem warmKept_keys_nodup (s : CacheState) (now : Nat)
    (hnd : (s.cache.map Prod.fst).Nodup) :
    ((warmKept s now).map ScoredKey.key).Nodup := by
  have h₁ : ((warmScored s now).map ScoredKey.key).Nodup :=
    hnd.sublist (warmScored_keys_sublist s now)
  have h₂ : ((scoreSortDesc (warmScored s now)).map ScoredKey.key).Nodup :=
    (((stableSort_perm _ _).map ScoredKey.key).nodup_iff).mpr h₁
  exact h₂.sublist ((List.take_sublist _ _).map _)

theorem foldl_mapSet_eq_map {α β : Type} (key : α → String) (f : α → β) :
    ∀ (l : List α) (acc : List (String × β)),
    (l.map key).Nodup → (∀ t ∈ l, key t ∉ acc.map Prod.fst) →
    l.foldl (fun a t => mapSet a (key t) (f t)) acc
      = acc ++ l.map (fun t => (key t, f t)) := by
  intro l
  induction l with
  | nil => intro acc _ _; simp
  | cons t l ih =>
      intro acc hnd hacc
      simp only [List.map_cons, List.nodup_cons] at hnd
      simp only [List.foldl_cons]
      rw [mapSet_append_of_not_mem _ _ _
        (hacc t (List.mem_cons_self _ _))]
      rw [ih (acc ++ [(key t, f t)]) hnd.2 ?_]
      · simp
      · intro u hu
        simp only [List.map_append, List.mem_append]
        push_neg
        refine ⟨hacc u (List.mem_cons_of_mem _ hu), ?_⟩
        simp only [List.map_cons, List.map_nil, List.mem_singleton]
        intro hc
        exact hnd.1 (hc ▸ List.mem_map_of_mem key hu)

theorem warmNewCache_eq (s : CacheState) (now : Nat)
    (hnd : (s.cache.map Prod.fst).Nodup) :
    warmNewCache s now
      = (warmKept s now).map
          (fun t => (t.key, refreshEntry s.ttl now t.entry)) := by
  unfold warmNewCache
  rw [foldl_mapSet_eq_map ScoredKey.key
    (fun t => refreshEntry s.ttl now t.entry) (warmKept s now) []
    (warmKept_keys_nodup s now hnd) (by simp)]
  simp

theorem warmScored_of_cache_nil (s : CacheState) (now : Nat)
    (h : s.cache = []) : warmScored s now = [] := by
  unfold warmScored
  rw [h]
  rfl

theorem cacheWarm_active (s : CacheState) (now : Nat)
    (hst : s.warmingStrategy = WarmingStrategy.usageBased)
    (hwip : s.warmingInProgress = false)
    (hne : warmScored s now ≠ []) :
    cacheWarm s now = updateMetricsF { s with cache := warmNewCache s now } := by
  unfold cacheWarm
  rw [if_neg (by simp [hwip, hst]), if_neg ?_, if_neg ?_]
  · simp only [List.isEmpty_eq_true]
    exact hne
  · simp only [List.isEmpty_eq_true]
    intro hc
    exact hne (warmScored_of_cache_nil s now hc)

theorem updateMetricsF_cache (s : CacheState) :
    (updateMetricsF s).cache = s.cache := rfl

theorem warmKeepCount_le (n : Nat) (h : 1 ≤ n) : warmKeepCount n ≤ n := by
  unfold warmKeepCount
  omega

/-- C6 counterexample: a usage-based cache whose single entry has a zero
score is returned unchanged by `warm()` — the zero-score entry is not
removed, contradicting the claim that the residents are exactly the
kept entries. -/
theorem c6_counterexample :
    (cacheSet (codecSmall ruleA) demoBase5 "a" ruleA 1 0).warmingStrategy
      = WarmingStrategy.usageBased ∧
    (∀ kv ∈ (cacheSet (codecSmall ruleA) demoBase5 "a" ruleA 1 0).cache,
      scoreOf kv.2 = 0) ∧
    (cacheSet (codecSmall ruleA) demoBase5 "a" ruleA 1 0).cache.length = 1 ∧
    cacheWarm (cacheSet (codecSmall ruleA) demoBase5 "a" ruleA 1 0) 0
      = cacheSet (codecSmall ruleA) demoBase5 "a" ruleA 1 0 := by
  refine ⟨rfl, by decide, by decide, by decide⟩

/-- C6 (amended): under the usage-based strategy, whenever at least one
entry has a positive score (`accessCount * (priority or 1)`), `warm()`
leaves resident exactly the refreshed top `max(min(2, n), ⌈n/5⌉)` of
the `n` positively-scored non-expired entries, sorted by descending
score; every kept entry has its TTL refreshed to `now + ttl` and its
access count reset to 1, and every expired or non-positively-scored
entry is evicted.  (When no entry has a positive score, `warm()`
returns the cache unchanged, which contradicts the unconditional claim;
see the counterexample.) -/
theorem c6_warm_selection (s : CacheState) (now : Nat)
    (hst : s.warmingStrategy = WarmingStrategy.usageBased)
    (hwip : s.warmingInProgress = false)
    (hnd : (s.cache.map Prod.fst).Nodup)
    (hne : warmScored s now ≠ []) :
    (cacheWarm s now).cache
      = (warmKept s now).map
          (fun t => (t.key, refreshEntry s.ttl now t.entry)) ∧
    (cacheWarm s now).cache.length
      = warmKeepCount (warmScored s now).length ∧
    (∀ kv ∈ (cacheWarm s now).cache, ∃ e₀ : CacheEntry,
      (kv.1, e₀) ∈ s.cache ∧ now ≤ e₀.expiresAt ∧ 0 < scoreOf e₀ ∧
      kv.2 = refreshEntry s.ttl now e₀) ∧
    (∀ kv ∈ s.cache, now > kv.2.expiresAt ∨ scoreOf kv.2 ≤ 0 →
      mapGet (cacheWarm s now).cache kv.1 = none) := by
  have hcache : (cacheWarm s now).cache
      = (warmKept s now).map
          (fun t => (t.key, refreshEntry s.ttl now t.entry)) := by
    rw [cacheWarm_active s now hst hwip hne, updateMetricsF_cache]
    exact warmNewCache_eq s now hnd
  refine ⟨hcache, ?_, ?_, ?_⟩
  · rw [hcache, List.length_map]
    unfold warmKept scoreSortDesc
    rw [List.length_take, (stableSort_perm _ _).length_eq]
    have h₁ : 1 ≤ (warmScored s now).length :=
      List.length_pos.mpr hne
    have h₂ := warmKeepCount_le (warmScored s now).length h₁
    omega
  · intro kv hkv
    rw [hcache] at hkv
    obtain ⟨t, ht, heq⟩ := List.mem_map.mp hkv
    obtain ⟨hmem, hexp, hpos, hscore⟩ :=
      warmScored_mem s now t (warmKept_mem s now t ht)
    refine ⟨t.entry, ?_, hexp, hscore ▸ hpos, ?_⟩
    · have h₁ : kv.1 = t.key := by rw [← heq]
      rw [h₁]
      exact hmem
    · rw [← heq]
  · intro kv hkv hbad
    rw [hcache]
    rw [mapGet_eq_none_iff]
    intro hin
    have hkeys : ((warmKept s now).map
        (fun t => (t.key, refreshEntry s.ttl now t.entry))).map Prod.fst
        = (warmKept s now).map ScoredKey.key := by
      rw [List.map_map]
      rfl
    rw [hkeys] at hin
    obtain ⟨t, ht, hteq⟩ := List.mem_map.mp hin
    obtain ⟨hmem, hexp, hpos, hscore⟩ :=
      warmScored_mem s now t (warmKept_mem s now t ht)
    rw [hteq] at hmem
    have hent : kv.2 = t.entry := by
      exact nodup_keys_unique s.cache kv.1 kv.2 t.entry hnd hkv
        (by
          have : kv.1 = t.key := hteq.symm
          exact hmem)
    rcases hbad with hb | hb
    · rw [hent] at hb
      omega
    · rw [hent] at hb
      rw [hscore] at hpos
      omega

/-- Witness for C6: three entries with access counts `[3, 2, 0]` and
priority 1; `warm()` keeps the two positively-scored entries (refreshed)
and evicts the zero-access one. -/
theorem c6_witness :
    warmDemo.warmingStrategy = WarmingStrategy.usageBased ∧
    warmDemo.warmingInProgress = false ∧
    (warmDemo.cache.map Prod.fst).Nodup ∧
    warmScored warmDemo 5 ≠ [] ∧
    ((cacheWarm warmDemo 5).cache
      = (warmKept warmDemo 5).map
          (fun t => (t.key, refreshEntry warmDemo.ttl 5 t.entry)) ∧
     (cacheWarm warmDemo 5).cache.length
      = warmKeepCount (warmScored warmDemo 5).length ∧
     (∀ kv ∈ (cacheWarm warmDemo 5).cache, ∃ e₀ : CacheEntry,
       (kv.1, e₀) ∈ warmDemo.cache ∧ 5 ≤ e₀.expiresAt ∧ 0 < scoreOf e₀ ∧
       kv.2 = refreshEntry warmDemo.ttl 5 e₀) ∧
     (∀ kv ∈ warmDemo.cache, 5 > kv.2.expiresAt ∨ scoreOf kv.2 ≤ 0 →
       mapGet (cacheWarm warmDemo 5).cache kv.1 = none)) :=
  ⟨rfl, rfl, by decide, by decide,
    c6_warm_selection warmDemo 5 rfl rfl (by decide) (by decide)⟩

end MCR
